import Mathlib

/-!
# envBRDF: the roughness / NoV lookup-table generator

A shallow embedding of `src/envBRDF.cpp` and the properties of its encoder, sample-count
rounding, grid worker, sample cache and raw writer.

Conventions of the embedding.

* `float` and `double` values are rationals.  The integrators compute with them exactly; in
  those definitions a division by zero yields `0`, as `ℚ` defines it.  Where a property
  depends on what the machine does instead, the machine is followed: the encoder rounds its
  product to `float` and its sum to `double` (`roundF32`, `roundF64`), and the integrators
  ending in `Ext` carry the infinities and NaN of the division `G * VoH / (NoH * NoV)` through
  the accumulators and the clamp.
* `int`, `uint` and `ubyte` values are natural numbers.  Conversions that narrow a value
  (`uint(..)`, `(ubyte)..`) reduce it modulo the width of the target type, and so do the
  `uint` products that give the length and the subscripts of the sample cache; the `int` byte
  count of `writeImage` has no result beyond the largest `int`.  The subscript `x + y * _size`
  of the grid is left in `ℕ`: it cannot wrap for a grid the constructor allocates, whose
  length `size * size` is an `int`.
* A buffer reached through a pointer is a function from offsets to elements; a store is
  `Function.update`.
* The header `Math` is not part of the sources at hand.  Its vector helpers are written out from
  their use in `envBRDF.cpp` and the description of the integrator; the square root and the
  GGX sample generator are parameters of every definition that calls them.
-/

namespace EnvBRDF

/-! ## Vectors -/

/-- Two-component vector `Vec2f`; `x` is component `[0]`, `y` is component `[1]`. -/
structure Vec2f where
  x : ℚ
  y : ℚ
deriving DecidableEq

/-- Three-component vector `Vec3f`; `x`, `y`, `z` are components `[0]`, `[1]`, `[2]`. -/
structure Vec3f where
  x : ℚ
  y : ℚ
  z : ℚ
deriving DecidableEq

/-! ## Encoder -/

/-- Conversion `uint(v)` of a non-negative floating value: the fraction is dropped and the
result is kept in 32 bits. -/
def toUint (v : ℚ) : ℕ := Int.toNat ⌊v⌋ % 2 ^ 32

/-- Conversion `(ubyte)n`: the low eight bits. -/
def toUbyte (n : ℕ) : ℕ := n % 256

/-- Rounding of a rational to the nearest integer, a tie going to the even neighbour. -/
def roundHalfEven (q : ℚ) : ℤ :=
  if q - ⌊q⌋ < 1 / 2 then ⌊q⌋
  else if 1 / 2 < q - ⌊q⌋ then ⌊q⌋ + 1
  else if ⌊q⌋ % 2 = 0 then ⌊q⌋ else ⌊q⌋ + 1

/-- Rounding to the nearest value of the binary floating-point format with `prec` significant
bits and least exponent `emin`, ties to even: the value is rounded to a multiple of the unit
in the last place of its binade (of the least binade for subnormal values).  The overflow to
infinity beyond the largest finite value is not represented. -/
def roundFloat (prec : ℕ) (emin : ℤ) (x : ℚ) : ℚ :=
  let e := max (Int.log 2 |x|) emin
  let ulp : ℚ := 2 ^ (e - ((prec : ℤ) - 1))
  roundHalfEven (x / ulp) * ulp

/-- Rounding of the result of an operation to `float`. -/
def roundF32 (x : ℚ) : ℚ := roundFloat 24 (-126) x

/-- Rounding of the result of an operation to `double`. -/
def roundF64 (x : ℚ) : ℚ := roundFloat 53 (-1022) x

/-- The expression `uint(v * 65535 + 0.5)` of lines 17-18 for a `float` `v`: the product is
taken in `float` (the constant `65535` converts exactly), the sum with the `double` `0.5` in
`double`, and the conversion drops the fraction. -/
def quantize (v : ℚ) : ℕ := toUint (roundF64 (roundF32 (v * 65535) + 1 / 2))

/-- Embedding of `convertVec2ToUintsetRGB(ptr, val)`: the four stores `ptr[0..3]` into the byte
buffer `mem`, where `ptr` is the offset of the pixel. -/
def convertVec2ToUintsetRGB (mem : ℕ → ℕ) (ptr : ℕ) (val : Vec2f) : ℕ → ℕ :=
  let A := quantize val.x
  let B := quantize val.y
  let v1 := toUbyte (A >>> 8 &&& 0xFF)
  let v0 := toUbyte A &&& 0xFF
  let v3 := toUbyte (B >>> 8 &&& 0xFF)
  let v2 := toUbyte B &&& 0xFF
  let m0 := Function.update mem ptr v0
  let m1 := Function.update m0 (ptr + 1) v1
  let m2 := Function.update m1 (ptr + 2) v2
  Function.update m2 (ptr + 3) v3

/-- Decoding of one 16-bit channel from its low and high byte, as a consumer of the file
does it (the disabled check of the encoder computes the same quotient). -/
def decodeChannel (lo hi : ℕ) : ℚ := ((lo + 256 * hi : ℕ) : ℚ) / 65535

/-! ## Buffers shared by the workers -/

/-- An allocated array: `len` elements, the current content `cell`, and the offsets stored to
so far, in program order. -/
structure Buf (α : Type) where
  len : ℕ
  cell : ℕ → α
  writes : List ℕ

/-- Allocation `new T[len]`; `init` is whatever the fresh elements hold. -/
def Buf.alloc {α : Type} (len : ℕ) (init : ℕ → α) : Buf α := ⟨len, init, []⟩

/-- One assignment `buf[i] = v`. -/
def Buf.store {α : Type} (b : Buf α) (i : ℕ) (v : α) : Buf α :=
  ⟨b.len, Function.update b.cell i v, b.writes ++ [i]⟩

/-! ## Helpers of the header `Math` -/

/-- Modelled from the spec: `operator+` of `Vec3f`, declared in the absent header `Math`;
component-wise sum. -/
def Vec3f.add (a b : Vec3f) : Vec3f := ⟨a.x + b.x, a.y + b.y, a.z + b.z⟩

/-- Modelled from the spec: `operator-` of `Vec3f`, declared in the absent header `Math`;
component-wise difference. -/
def Vec3f.sub (a b : Vec3f) : Vec3f := ⟨a.x - b.x, a.y - b.y, a.z - b.z⟩

/-- Modelled from the spec: `Vec3f * scalar`, declared in the absent header `Math`. -/
def Vec3f.scale (a : Vec3f) (s : ℚ) : Vec3f := ⟨a.x * s, a.y * s, a.z * s⟩

/-- Modelled from the spec: `dot(a, b)` (also written `a * b`), declared in the absent header
`Math`; the dot product. -/
def dot (a b : Vec3f) : ℚ := a.x * b.x + a.y * b.y + a.z * b.z

/-- Modelled from the spec: `cross(a, b)`, declared in the absent header `Math`; the cross
product. -/
def cross (a b : Vec3f) : Vec3f :=
  ⟨a.y * b.z - a.z * b.y, a.z * b.x - a.x * b.z, a.x * b.y - a.y * b.x⟩

/-- Modelled from the spec: `normalize(v)`, declared in the absent header `Math`; `v` divided
by its length, the square root being the parameter `sqrt`. -/
def normalize (sqrt : ℚ → ℚ) (v : Vec3f) : Vec3f :=
  let l := sqrt (dot v v)
  ⟨v.x / l, v.y / l, v.z / l⟩

/-- Modelled from the spec: `clampTo(v, minimum, maximum)`, declared in the absent header
`Math`; `v` clamped to the interval. -/
def clampTo (v minimum maximum : ℚ) : ℚ :=
  if v < minimum then minimum else if v > maximum then maximum else v

/-- Modelled from the spec: `saturate(v)`, declared in the absent header `Math`;
clamp to `[0, 1]`. -/
def saturate (v : ℚ) : ℚ := clampTo v 0 1

/-! ## Integrators (`struct Worker`) -/

/-- Embedding of `Worker::G1_Schlick`. -/
def G1_Schlick (ndw k : ℚ) : ℚ := 1 / (ndw * (1 - k) + k)

/-- Embedding of `Worker::G_Schlick`. -/
def G_Schlick (ndv ndl k : ℚ) : ℚ :=
  let G1_ndl := G1_Schlick ndl k
  let G1_ndv := G1_Schlick ndv k
  ndv * ndl * G1_ndl * G1_ndv

/-- The locals `roughness`, `m`, `k` of both integrators (lines 97-99 and 151-153): the
Smith-Schlick parameter as a function of `roughnessLinear`. -/
def schlickK (roughnessLinear : ℚ) : ℚ :=
  let roughness := roughnessLinear * roughnessLinear
  let m := roughness
  m * (1 / 2)

/-- The local `UpVector` of both integrators (lines 93 and 147). -/
def upVector (N : Vec3f) : Vec3f :=
  if |N.z| < 999 / 1000 then ⟨0, 0, 1⟩ else ⟨1, 0, 0⟩

/-- The pointer `cacheLineSampleGGX = &cacheImportanceSampleGGX[roughnessIndex * numSamples]`
of both integrators, as the function its subscripts `cacheLineSampleGGX[i]` compute; the
product `roughnessIndex * numSamples` is a `uint`. -/
def cacheLineSampleGGX (cache : ℕ → Vec3f) (roughnessIndex numSamples : ℕ) (i : ℕ) : Vec3f :=
  cache (roughnessIndex * numSamples % 2 ^ 32 + i)

/-- Body of the sample loop of `Worker::integrateBRDF` (lines 105-124) for a local half
vector `localH`, on the accumulators `(A, B)`.  The locals `V`, `N`, `UpVector`, `TangentX`,
`TangentY`, `k` that the source sets before the loop (lines 81-99) are bound here.  The
arithmetic is exact; `integrateBRDFStepExt` is the body with the infinities and NaN of its
division. -/
def integrateBRDFStep (sqrt : ℚ → ℚ) (roughnessLinear NoV : ℚ) (acc : ℚ × ℚ)
    (localH : Vec3f) : ℚ × ℚ :=
  let V : Vec3f := ⟨sqrt (1 - NoV * NoV), 0, NoV⟩
  let N : Vec3f := ⟨0, 0, 1⟩
  let UpVector := upVector N
  let TangentX := normalize sqrt (cross UpVector N)
  let TangentY := normalize sqrt (cross N TangentX)
  let k := schlickK roughnessLinear
  let H := ((TangentX.scale localH.x).add (TangentY.scale localH.y)).add (N.scale localH.z)
  let L := (H.scale (dot V H * 2)).sub V
  let NoL := saturate L.z
  let NoH := saturate H.z
  let VoH := saturate (dot V H)
  if NoL > 0 then
    let G := G_Schlick NoV NoL k
    let G_Vis := G * VoH / (NoH * NoV)
    let Fc := (1 - VoH) ^ 5
    (acc.1 + (1 - Fc) * G_Vis, acc.2 + Fc * G_Vis)
  else acc

/-- Body of the sample loop of `Worker::integrateBRDFMultiscatter` (lines 159-178) for a local
half vector `localH`, on the accumulators `(A, B)`; the locals set before the loop (lines
135-153) are bound here.  The arithmetic is exact; `integrateBRDFMultiscatterStepExt` is the
body with the infinities and NaN of its division. -/
def integrateBRDFMultiscatterStep (sqrt : ℚ → ℚ) (roughnessLinear NoV : ℚ) (acc : ℚ × ℚ)
    (localH : Vec3f) : ℚ × ℚ :=
  let V : Vec3f := ⟨sqrt (1 - NoV * NoV), 0, NoV⟩
  let N : Vec3f := ⟨0, 0, 1⟩
  let UpVector := upVector N
  let TangentX := normalize sqrt (cross UpVector N)
  let TangentY := normalize sqrt (cross N TangentX)
  let k := schlickK roughnessLinear
  let H := ((TangentX.scale localH.x).add (TangentY.scale localH.y)).add (N.scale localH.z)
  let L := (H.scale (dot V H * 2)).sub V
  let NoL := saturate L.z
  let NoH := saturate H.z
  let VoH := saturate (dot V H)
  if NoL > 0 then
    let G := G_Schlick NoV NoL k
    let G_Vis := G * VoH / (NoH * NoV)
    let Fc := (1 - VoH) ^ 5
    (acc.1 + Fc * G_Vis, acc.2 + G_Vis)
  else acc

/-- The accumulators `(A, B)` of `Worker::integrateBRDF` after the two divisions by
`numSamples` (lines 90-127), before clamping.  `cache` is the content of the global
`cacheImportanceSampleGGX`. -/
def integrateBRDFSums (sqrt : ℚ → ℚ) (cache : ℕ → Vec3f) (roughnessLinear NoV : ℚ)
    (numSamples roughnessIndex : ℕ) : ℚ × ℚ :=
  let acc := (List.range numSamples).foldl
    (fun acc i =>
      integrateBRDFStep sqrt roughnessLinear NoV acc
        (cacheLineSampleGGX cache roughnessIndex numSamples i))
    ((0, 0) : ℚ × ℚ)
  (acc.1 / numSamples, acc.2 / numSamples)

/-- Embedding of `Worker::integrateBRDF`. -/
def integrateBRDF (sqrt : ℚ → ℚ) (cache : ℕ → Vec3f) (roughnessLinear NoV : ℚ)
    (numSamples roughnessIndex : ℕ) : Vec2f :=
  let s := integrateBRDFSums sqrt cache roughnessLinear NoV numSamples roughnessIndex
  ⟨clampTo s.1 0 1, clampTo s.2 0 1⟩

/-- The accumulators `(A, B)` of `Worker::integrateBRDFMultiscatter` after the two divisions
by `numSamples` (lines 144-181), before clamping. -/
def integrateBRDFMultiscatterSums (sqrt : ℚ → ℚ) (cache : ℕ → Vec3f)
    (roughnessLinear NoV : ℚ) (numSamples roughnessIndex : ℕ) : ℚ × ℚ :=
  let acc := (List.range numSamples).foldl
    (fun acc i =>
      integrateBRDFMultiscatterStep sqrt roughnessLinear NoV acc
        (cacheLineSampleGGX cache roughnessIndex numSamples i))
    ((0, 0) : ℚ × ℚ)
  (acc.1 / numSamples, acc.2 / numSamples)

/-- Embedding of `Worker::integrateBRDFMultiscatter`. -/
def integrateBRDFMultiscatter (sqrt : ℚ → ℚ) (cache : ℕ → Vec3f) (roughnessLinear NoV : ℚ)
    (numSamples roughnessIndex : ℕ) : Vec2f :=
  let s := integrateBRDFMultiscatterSums sqrt cache roughnessLinear NoV numSamples
    roughnessIndex
  ⟨clampTo s.1 0 1, clampTo s.2 0 1⟩

/-- The members `_numSamples`, `_size` of `struct Worker`; the member `_lut` is the buffer
passed to `Worker.call`. -/
structure Worker where
  _numSamples : ℕ
  _size : ℕ

/-- Embedding of `Worker::operator()` on the row range `[rBegin, rEnd)`: the state is the
LUT buffer, `cache` the content of the sample cache. -/
def Worker.call (sqrt : ℚ → ℚ) (cache : ℕ → Vec3f) (w : Worker) (rBegin rEnd : ℕ)
    (lut : Buf Vec2f) : Buf Vec2f :=
  let step : ℚ := 1 / (w._size : ℚ)
  (List.range' rBegin (rEnd - rBegin)).foldl
    (fun (lut : Buf Vec2f) (y : ℕ) =>
      let roughnessLinear := step * ((y : ℚ) + 1 / 2)
      (List.range w._size).foldl
        (fun (lut : Buf Vec2f) (x : ℕ) =>
          let NoV := step * ((x : ℚ) + 1 / 2)
          let values := integrateBRDFMultiscatter sqrt cache roughnessLinear NoV w._numSamples y
          lut.store (x + y * w._size) values)
        lut)
    lut

/-- The members of `struct WorkerPrepareCache`. -/
structure WorkerPrepareCache where
  _numSamples : ℕ
  _size : ℕ

/-- Embedding of `WorkerPrepareCache::operator()` on the row range `[rBegin, rEnd)`: the state
is the sample cache; the subscript `cacheLineIndex * _numSamples + i` is a `uint`. -/
def WorkerPrepareCache.call (importanceSampleGGX : ℕ → ℕ → ℚ → Vec3f) (w : WorkerPrepareCache)
    (rBegin rEnd : ℕ) (cache : Buf Vec3f) : Buf Vec3f :=
  let step : ℚ := 1 / (w._size : ℚ)
  (List.range' rBegin (rEnd - rBegin)).foldl
    (fun (cache : Buf Vec3f) (y : ℕ) =>
      let roughnessLinear := step * ((y : ℚ) + 1 / 2)
      let cacheLineIndex := y
      (List.range w._numSamples).foldl
        (fun (cache : Buf Vec3f) (i : ℕ) =>
          cache.store ((cacheLineIndex * w._numSamples + i) % 2 ^ 32)
            (importanceSampleGGX i w._numSamples roughnessLinear))
        cache)
    cache

/-! ## Scheduling -/

/-- The bands `[c, d)` listed in `bands` cut the row range `[a, b)` into contiguous pieces, in
increasing order (`IsSplit a b bands`). -/
def IsSplit : ℕ → ℕ → List (ℕ × ℕ) → Prop
  | a, b, [] => a = b
  | a, b, band :: rest => band.1 = a ∧ band.1 ≤ band.2 ∧ IsSplit band.2 b rest

/-- One run of `parallel_for` taken band by band: `schedule` lists the bands in the order in
which the body is applied to them. -/
def parallelFor {σ : Type} (schedule : List (ℕ × ℕ)) (body : ℕ → ℕ → σ → σ) (s : σ) : σ :=
  schedule.foldl (fun s band => body band.1 band.2 s) s

/-! ## Generator (`struct RougnessNoVLUT`) -/

/-- The members of `struct RougnessNoVLUT`; `_maxValue` is never read. -/
structure RougnessNoVLUT where
  _size : ℕ
  _lut : Buf Vec2f
  _nbSamples : ℕ

/-- The default of the constructor's parameter `samples`. -/
def defaultSamples : ℕ := 1024

/-- Embedding of the constructor `RougnessNoVLUT(size, samples)`; `init` is the content of
the fresh grid. -/
def RougnessNoVLUT.new (init : ℕ → Vec2f) (size samples : ℕ) : RougnessNoVLUT :=
  ⟨size, Buf.alloc (size * size) init, samples⟩

/-- The number of samples `processRoughnessNoVLut` computes from the member `_nbSamples`
(line 262): `pow(2, uint(floor(log2(_nbSamples))))` stored in a `uint`.  For `_nbSamples ≥ 1`
the floor of the binary logarithm is `Nat.log2`; for `_nbSamples = 0` the source converts an
infinite value, which the language leaves undefined. -/
def numSamplesOf (nbSamples : ℕ) : ℕ := 2 ^ (Nat.log2 nbSamples % 2 ^ 32) % 2 ^ 32

/-- Embedding of `RougnessNoVLUT::prepareCacheGGX` under the schedule `schedule` of its
`parallel_for`; `init` is the content of the fresh cache, whose length `numSamples * size` is
a `uint`. -/
def prepareCacheGGX (importanceSampleGGX : ℕ → ℕ → ℚ → Vec3f) (init : ℕ → Vec3f)
    (schedule : List (ℕ × ℕ)) (numSamples size : ℕ) : Buf Vec3f :=
  parallelFor schedule
    (WorkerPrepareCache.call importanceSampleGGX ⟨numSamples, size⟩)
    (Buf.alloc (numSamples * size % 2 ^ 32) init)

/-- Embedding of `RougnessNoVLUT::writeImage`: the bytes handed to `fwrite`; `data0` is the
content of the fresh byte buffer.  The byte count `width * height * 4` and the offsets `i * 4`
are `int`s: the result is `none` when the count is beyond the largest `int`, where the source
overflows and the language leaves its behaviour undefined. -/
def writeImage (data0 : ℕ → ℕ) (width height : ℕ) (buffer : ℕ → Vec2f) : Option (List ℕ) :=
  if width * height * 4 < 2 ^ 31 then
    let data := (List.range (width * height)).foldl
      (fun data i => convertVec2ToUintsetRGB data (i * 4) (buffer i)) data0
    some ((List.range (width * height * 4)).map data)
  else none

/-- The four bytes of one encoded pixel. -/
def encodePixel (val : Vec2f) : List ℕ :=
  (List.range 4).map (convertVec2ToUintsetRGB (fun _ => 0) 0 val)

/-- The fresh contents of the buffers a run allocates. -/
structure Fresh where
  cache : ℕ → Vec3f
  data : ℕ → ℕ

/-- Embedding of `RougnessNoVLUT::processRoughnessNoVLut`: the bytes written to the file, under
the schedules of the two `parallel_for` runs (`none` as for `writeImage`). -/
def processRoughnessNoVLut (sqrt : ℚ → ℚ) (importanceSampleGGX : ℕ → ℕ → ℚ → Vec3f)
    (fresh : Fresh) (cacheSchedule lutSchedule : List (ℕ × ℕ)) (self : RougnessNoVLUT) :
    Option (List ℕ) :=
  let numSamples := numSamplesOf self._nbSamples
  let cache := prepareCacheGGX importanceSampleGGX fresh.cache cacheSchedule numSamples
    self._size
  let lut := parallelFor lutSchedule
    (Worker.call sqrt cache.cell ⟨numSamples, self._size⟩) self._lut
  writeImage fresh.data self._size self._size lut.cell

/-! ## Command line (`main`) -/

/-- One option as `getopt` reports it: the option character and the number `atof` reads from
its argument. -/
structure Opt where
  flag : Char
  value : ℕ

/-- The `while`/`switch` of `main` over the options: the locals `(size, samples)` after the
loop, or `none` when an option other than `s`, `n` makes `main` return `usage`. -/
def parseOpts : List Opt → ℕ × ℕ → Option (ℕ × ℕ)
  | [], st => some st
  | o :: rest, st =>
    if o.flag = 's' then parseOpts rest (o.value, st.2)
    else if o.flag = 'n' then parseOpts rest (st.1, o.value)
    else none

/-- What `main` does: exit status `1` after printing the usage, or the generator it
constructed and ran on the output path. -/
inductive MainResult where
  | usage : MainResult
  | generated (output : String) (lut : RougnessNoVLUT) : MainResult

/-- Embedding of `main`: `opts` are the options in command-line order, `operands` the
arguments left at `optind`; `init` is the content of the fresh grid. -/
def main (init : ℕ → Vec2f) (opts : List Opt) (operands : List String) : MainResult :=
  match parseOpts opts (0, 1024) with
  | none => MainResult.usage
  | some (size, _samples) =>
    match operands with
    | output :: _ =>
      let size := if size = 0 then 256 else size
      MainResult.generated output (RougnessNoVLUT.new init size defaultSamples)
    | [] => MainResult.usage

/-- The sample count the generator run by `main` integrates with, when `main` runs one. -/
def MainResult.numSamples : MainResult → Option ℕ
  | MainResult.usage => none
  | MainResult.generated _ lut => some (numSamplesOf lut._nbSamples)


/-! ## Closed forms used in the statements -/

/-- The buffer after the stores `buf[q] = value q` for `q = start, .., start + count - 1`,
in increasing order of `q`. -/
def Buf.fill {α : Type} (value : ℕ → α) (start count : ℕ) (b : Buf α) : Buf α :=
  ⟨b.len, fun q => if start ≤ q ∧ q < start + count then value q else b.cell q,
    b.writes ++ List.range' start count⟩

/-- The value `Worker::operator()` computes for the grid cell of linear index `q`, that is
of row `q / _size` and column `q % _size`. -/
def Worker.cellValue (sqrt : ℚ → ℚ) (cache : ℕ → Vec3f) (w : Worker) (q : ℕ) : Vec2f :=
  integrateBRDFMultiscatter sqrt cache
    (1 / (w._size : ℚ) * (((q / w._size : ℕ) : ℚ) + 1 / 2))
    (1 / (w._size : ℚ) * (((q % w._size : ℕ) : ℚ) + 1 / 2))
    w._numSamples (q / w._size)

/-- The value `WorkerPrepareCache::operator()` computes for the cache slot of index `q`, that
is of row `q / _numSamples` and sample `q % _numSamples`. -/
def WorkerPrepareCache.cellValue (importanceSampleGGX : ℕ → ℕ → ℚ → Vec3f)
    (w : WorkerPrepareCache) (q : ℕ) : Vec3f :=
  importanceSampleGGX (q % w._numSamples) w._numSamples
    (1 / (w._size : ℚ) * (((q / w._numSamples : ℕ) : ℚ) + 1 / 2))

/-- Offset `q` lies in the part of a buffer that belongs to the rows `[band.1, band.2)`, each
row being `k` consecutive elements (`InBand k q band`). -/
def InBand (k q : ℕ) (band : ℕ × ℕ) : Bool :=
  decide (band.1 * k ≤ q ∧ q < band.1 * k + (band.2 - band.1) * k)

/-- The three quantities of one sample that decide what the loop body of an integrator adds:
the locals `NoL`, `Fc`, `G_Vis`. -/
structure SampleTerms where
  NoL : ℚ
  Fc : ℚ
  G_Vis : ℚ

/-- The evaluation of one sample that both integrators share (lines 81-99 and 109-121, lines
135-153 and 163-175), with the local `UpVector` as a parameter: `NoL`, and the values `Fc` and
`G_Vis` that the body computes when `NoL > 0`. -/
def sampleTerms (UpVector : Vec3f) (sqrt : ℚ → ℚ) (roughnessLinear NoV : ℚ)
    (localH : Vec3f) : SampleTerms :=
  let V : Vec3f := ⟨sqrt (1 - NoV * NoV), 0, NoV⟩
  let N : Vec3f := ⟨0, 0, 1⟩
  let TangentX := normalize sqrt (cross UpVector N)
  let TangentY := normalize sqrt (cross N TangentX)
  let k := schlickK roughnessLinear
  let H := ((TangentX.scale localH.x).add (TangentY.scale localH.y)).add (N.scale localH.z)
  let L := (H.scale (dot V H * 2)).sub V
  let NoL := saturate L.z
  let NoH := saturate H.z
  let VoH := saturate (dot V H)
  let G := G_Schlick NoV NoL k
  let G_Vis := G * VoH / (NoH * NoV)
  let Fc := (1 - VoH) ^ 5
  ⟨NoL, Fc, G_Vis⟩

/-- The samples of the cache line of row `roughnessIndex` that pass the test `NoL > 0`, each
with its terms, in the order of the loop. -/
def contributingSamples (sqrt : ℚ → ℚ) (cache : ℕ → Vec3f) (roughnessLinear NoV : ℚ)
    (numSamples roughnessIndex : ℕ) : List SampleTerms :=
  ((List.range numSamples).map
    (fun i => sampleTerms (upVector ⟨0, 0, 1⟩) sqrt roughnessLinear NoV
      (cacheLineSampleGGX cache roughnessIndex numSamples i))).filter
    (fun t => decide (t.NoL > 0))

/-! ## Integrators with the special values of the division

The division `G * VoH / (NoH * NoV)` of the loop body is the one whose divisor can vanish on
a sample that passes the test `NoL > 0`.  The definitions below follow the value `G_Vis`
through the accumulators, the division by `numSamples` and the clamp when it is an infinity
or NaN; everything computed before that division is a number, as in the definitions above. -/

/-- A floating-point value: a number, an infinity, or NaN. -/
inductive FloatValue where
  | num (q : ℚ)
  | posInf
  | negInf
  | nan
deriving DecidableEq

/-- The product `c * x` of a number and a value: zero times an infinity is NaN. -/
def FloatValue.scale (c : ℚ) : FloatValue → FloatValue
  | FloatValue.num q => FloatValue.num (c * q)
  | FloatValue.posInf =>
    if c = 0 then FloatValue.nan
    else if 0 < c then FloatValue.posInf else FloatValue.negInf
  | FloatValue.negInf =>
    if c = 0 then FloatValue.nan
    else if 0 < c then FloatValue.negInf else FloatValue.posInf
  | FloatValue.nan => FloatValue.nan

/-- The sum of two values: NaN is absorbing and opposite infinities add up to NaN. -/
def FloatValue.add : FloatValue → FloatValue → FloatValue
  | FloatValue.num a, FloatValue.num b => FloatValue.num (a + b)
  | FloatValue.nan, _ => FloatValue.nan
  | _, FloatValue.nan => FloatValue.nan
  | FloatValue.posInf, FloatValue.negInf => FloatValue.nan
  | FloatValue.negInf, FloatValue.posInf => FloatValue.nan
  | FloatValue.posInf, _ => FloatValue.posInf
  | _, FloatValue.posInf => FloatValue.posInf
  | FloatValue.negInf, _ => FloatValue.negInf
  | _, FloatValue.negInf => FloatValue.negInf

theorem toUbyte_high (A : ℕ) : toUbyte (A >>> 8 &&& 0xFF) = A / 256 % 256 := by
  have h : (0xFF : ℕ) = 2 ^ 8 - 1 := by norm_num
  rw [h, Nat.and_pow_two_sub_one_eq_mod, Nat.shiftRight_eq_div_pow]
  simp [toUbyte]

theorem toUbyte_low (A : ℕ) : toUbyte A &&& 0xFF = A % 256 := by
  have h : (0xFF : ℕ) = 2 ^ 8 - 1 := by norm_num
  rw [h, Nat.and_pow_two_sub_one_eq_mod]
  simp [toUbyte]

/-- The content of the byte buffer after `convertVec2ToUintsetRGB`, offset by offset. -/
theorem convertVec2ToUintsetRGB_apply (mem : ℕ → ℕ) (ptr : ℕ) (val : Vec2f) (q : ℕ) :
    convertVec2ToUintsetRGB mem ptr val q =
      if q = ptr + 3 then quantize val.y / 256 % 256
      else if q = ptr + 2 then quantize val.y % 256
      else if q = ptr + 1 then quantize val.x / 256 % 256
      else if q = ptr then quantize val.x % 256
      else mem q := by
  simp only [convertVec2ToUintsetRGB, toUbyte_high, toUbyte_low, Function.update_apply]

/-! ### Rounding -/

theorem roundHalfEven_le (q : ℚ) (N : ℤ) (h : q ≤ N) : roundHalfEven q ≤ N := by
  have hfl : (⌊q⌋ : ℚ) ≤ q := Int.floor_le q
  have h1 : ⌊q⌋ ≤ N := by
    have : ((⌊q⌋ : ℤ) : ℚ) ≤ (N : ℚ) := le_trans hfl h
    exact_mod_cast this
  have h2 : ¬ (q - ⌊q⌋ < 1 / 2) → ⌊q⌋ + 1 ≤ N := by
    intro hr
    have : ((⌊q⌋ : ℤ) : ℚ) < (N : ℚ) := by linarith
    have : ⌊q⌋ < N := by exact_mod_cast this
    omega
  unfold roundHalfEven
  split_ifs with c1 c2 c3
  · exact h1
  · exact h2 c1
  · exact h1
  · exact h2 c1

theorem le_roundHalfEven (q : ℚ) (N : ℤ) (h : (N : ℚ) ≤ q) : N ≤ roundHalfEven q := by
  have h1 : N ≤ ⌊q⌋ := Int.le_floor.mpr h
  unfold roundHalfEven
  split_ifs <;> omega

/-- The exponent of the binade of a non-negative value below `2^t`. -/
theorem float_exponent_le (x : ℚ) (t emin : ℤ) (hx0 : 0 ≤ x) (hxt : x < 2 ^ t) (ht : 1 ≤ t)
    (hemin : emin ≤ t - 1) : max (Int.log 2 |x|) emin ≤ t - 1 := by
  rw [abs_of_nonneg hx0]
  apply max_le _ hemin
  rcases eq_or_lt_of_le hx0 with h0 | hpos
  · rw [← h0, Int.log_zero_right]
    omega
  · have h : Int.log 2 x < t := by
      rw [← Int.lt_zpow_iff_log_lt (by norm_num) hpos]
      exact_mod_cast hxt
    omega

/-- A half-integer is a multiple of the unit in the last place of any binade whose unit is at
most `1/2`. -/
theorem half_eq_multiple (h k : ℤ) (d : ℕ) (hd : -1 - k = (d : ℤ)) :
    (h : ℚ) / 2 = ((h * 2 ^ d : ℤ) : ℚ) * 2 ^ k := by
  have hk : k = -1 - (d : ℤ) := by omega
  push_cast
  rw [hk, zpow_sub₀ (by norm_num), zpow_natCast]
  field_simp
  ring

/-- Rounding does not cross a half-integer from below, in a binade whose unit in the last
place is at most `1/2`. -/
theorem roundFloat_le_half (prec : ℕ) (emin : ℤ) (x : ℚ) (h : ℤ)
    (hk : max (Int.log 2 |x|) emin - ((prec : ℤ) - 1) ≤ -1) (hx : x ≤ (h : ℚ) / 2) :
    roundFloat prec emin x ≤ (h : ℚ) / 2 := by
  unfold roundFloat
  simp only
  generalize max (Int.log 2 |x|) emin - ((prec : ℤ) - 1) = k at hk
  obtain ⟨d, hd⟩ := Int.eq_ofNat_of_zero_le (show 0 ≤ -1 - k by omega)
  have hu : (0 : ℚ) < 2 ^ k := zpow_pos (by norm_num) k
  have hhalf := half_eq_multiple h k d hd
  have hq : x / 2 ^ k ≤ ((h * 2 ^ d : ℤ) : ℚ) := by
    rw [div_le_iff₀ hu, ← hhalf]
    exact hx
  have hr := roundHalfEven_le _ _ hq
  rw [hhalf]
  have hc : ((roundHalfEven (x / 2 ^ k) : ℤ) : ℚ) ≤ ((h * 2 ^ d : ℤ) : ℚ) := by
    exact_mod_cast hr
  exact mul_le_mul_of_nonneg_right hc hu.le

/-- Rounding does not cross a half-integer from above, in a binade whose unit in the last
place is at most `1/2`. -/
theorem half_le_roundFloat (prec : ℕ) (emin : ℤ) (x : ℚ) (h : ℤ)
    (hk : max (Int.log 2 |x|) emin - ((prec : ℤ) - 1) ≤ -1) (hx : (h : ℚ) / 2 ≤ x) :
    (h : ℚ) / 2 ≤ roundFloat prec emin x := by
  unfold roundFloat
  simp only
  generalize max (Int.log 2 |x|) emin - ((prec : ℤ) - 1) = k at hk
  obtain ⟨d, hd⟩ := Int.eq_ofNat_of_zero_le (show 0 ≤ -1 - k by omega)
  have hu : (0 : ℚ) < 2 ^ k := zpow_pos (by norm_num) k
  have hhalf := half_eq_multiple h k d hd
  have hq : ((h * 2 ^ d : ℤ) : ℚ) ≤ x / 2 ^ k := by
    rw [le_div_iff₀ hu, ← hhalf]
    exact hx
  have hr := le_roundHalfEven _ _ hq
  rw [hhalf]
  have hc : ((h * 2 ^ d : ℤ) : ℚ) ≤ ((roundHalfEven (x / 2 ^ k) : ℤ) : ℚ) := by
    exact_mod_cast hr
  exact mul_le_mul_of_nonneg_right hc hu.le

/-- The unit in the last place of a `float` below `2^16` is at most `1/2`. -/
theorem float_unit_small (x : ℚ) (hx0 : 0 ≤ x) (hx1 : x ≤ 65535) :
    max (Int.log 2 |x|) (-126) - (((24 : ℕ) : ℤ) - 1) ≤ -1 := by
  have h := float_exponent_le x 16 (-126) hx0
    (lt_of_le_of_lt hx1 (by norm_num)) (by norm_num) (by norm_num)
  push_cast
  omega

/-- The unit in the last place of a `double` below `2^17` is at most `1/2`. -/
theorem double_unit_small (w : ℚ) (hw0 : 0 ≤ w) (hw1 : w ≤ 65536) :
    max (Int.log 2 |w|) (-1022) - (((53 : ℕ) : ℤ) - 1) ≤ -1 := by
  have h := float_exponent_le w 17 (-1022) hw0
    (lt_of_le_of_lt hw1 (by norm_num)) (by norm_num) (by norm_num)
  push_cast
  omega

/-- The product rounded to `float` stays in `[0, 65535]`. -/
theorem roundF32_range (x : ℚ) (hx0 : 0 ≤ x) (hx1 : x ≤ 65535) :
    0 ≤ roundF32 x ∧ roundF32 x ≤ 65535 := by
  have hk := float_unit_small x hx0 hx1
  have hlo := half_le_roundFloat 24 (-126) x 0 hk (by simpa using hx0)
  have hhi := roundFloat_le_half 24 (-126) x 131070 hk (by norm_num; exact hx1)
  norm_num at hlo hhi
  exact ⟨hlo, hhi⟩

/-- The integer the encoder obtains for a scaled value `x` that is at most the half-integer
`h / 2`. -/
theorem channel_upper (x : ℚ) (h : ℤ) (hx0 : 0 ≤ x) (hx1 : x ≤ 65535)
    (hxh : x ≤ (h : ℚ) / 2) : ⌊roundF64 (roundF32 x + 1 / 2)⌋ ≤ (h + 1) / 2 := by
  obtain ⟨hy0, hy1⟩ := roundF32_range x hx0 hx1
  have hyh : roundF32 x ≤ (h : ℚ) / 2 :=
    roundFloat_le_half 24 (-126) x h (float_unit_small x hx0 hx1) hxh
  have hk64 := double_unit_small (roundF32 x + 1 / 2) (by linarith) (by linarith)
  have hz : roundF64 (roundF32 x + 1 / 2) ≤ ((h + 1 : ℤ) : ℚ) / 2 :=
    roundFloat_le_half 53 (-1022) _ (h + 1) hk64 (by push_cast; linarith)
  have hfl := Int.floor_le_floor hz
  have hdiv := Rat.floor_intCast_div_natCast (h + 1) 2
  simp only [Nat.cast_ofNat] at hdiv
  rw [hdiv] at hfl
  exact hfl

/-- The integer the encoder obtains for a scaled value `x` that is at least the half-integer
`h / 2`. -/
theorem channel_lower (x : ℚ) (h : ℤ) (hx0 : 0 ≤ x) (hx1 : x ≤ 65535)
    (hxh : (h : ℚ) / 2 ≤ x) : (h + 1) / 2 ≤ ⌊roundF64 (roundF32 x + 1 / 2)⌋ := by
  obtain ⟨hy0, hy1⟩ := roundF32_range x hx0 hx1
  have hyh : (h : ℚ) / 2 ≤ roundF32 x :=
    half_le_roundFloat 24 (-126) x h (float_unit_small x hx0 hx1) hxh
  have hk64 := double_unit_small (roundF32 x + 1 / 2) (by linarith) (by linarith)
  have hz : ((h + 1 : ℤ) : ℚ) / 2 ≤ roundF64 (roundF32 x + 1 / 2) :=
    half_le_roundFloat 53 (-1022) _ (h + 1) hk64 (by push_cast; linarith)
  have hfl := Int.floor_le_floor hz
  have hdiv := Rat.floor_intCast_div_natCast (h + 1) 2
  simp only [Nat.cast_ofNat] at hdiv
  rw [hdiv] at hfl
  exact hfl

/-- The binade of a positive value between two consecutive powers of two. -/
theorem log2_eq_of_zpow_bounds (x : ℚ) (k : ℤ) (h1 : (2 : ℚ) ^ k ≤ x)
    (h2 : x < 2 ^ (k + 1)) : Int.log 2 |x| = k := by
  have hpos : 0 < x := lt_of_lt_of_le (zpow_pos (by norm_num) k) h1
  rw [abs_of_pos hpos]
  have ha : k ≤ Int.log 2 x := by
    rw [← Int.zpow_le_iff_le_log (by norm_num) hpos]
    exact_mod_cast h1
  have hb : Int.log 2 x < k + 1 := by
    rw [← Int.lt_zpow_iff_log_lt (by norm_num) hpos]
    exact_mod_cast h2
  omega

/-- For a component `a` in `[0, 1]` the quantised channel is the floor of the rounded sum, a
16-bit value; it is `floor(a * 65535 + 1/2)` or one more, and `floor(a * 65535)` or one
more. -/
theorem quantize_channel (a : ℚ) (h0 : 0 ≤ a) (h1 : a ≤ 1) :
    ((quantize a : ℕ) : ℤ) = ⌊roundF64 (roundF32 (a * 65535) + 1 / 2)⌋ ∧
      quantize a ≤ 65535 ∧
      (⌊a * 65535 + 1 / 2⌋ ≤ ((quantize a : ℕ) : ℤ) ∧
        ((quantize a : ℕ) : ℤ) ≤ ⌊a * 65535 + 1 / 2⌋ + 1) ∧
      (⌊a * 65535⌋ ≤ ((quantize a : ℕ) : ℤ) ∧ ((quantize a : ℕ) : ℤ) ≤ ⌊a * 65535⌋ + 1) := by
  have hx0 : 0 ≤ a * 65535 := by linarith
  have hx1 : a * 65535 ≤ 65535 := by linarith
  have hnn := channel_lower (a * 65535) 0 hx0 hx1 (by simpa using hx0)
  have h16 := channel_upper (a * 65535) 131070 hx0 hx1 (by
    have hc : ((131070 : ℤ) : ℚ) / 2 = 65535 := by norm_num
    rw [hc]
    exact hx1)
  have hF1 := channel_lower (a * 65535) (2 * ⌊a * 65535 + 1 / 2⌋ - 1) hx0 hx1 (by
    have := Int.floor_le (a * 65535 + 1 / 2)
    push_cast
    linarith)
  have hF2 := channel_upper (a * 65535) (2 * ⌊a * 65535 + 1 / 2⌋ + 1) hx0 hx1 (by
    have := Int.lt_floor_add_one (a * 65535 + 1 / 2)
    push_cast
    linarith)
  have hK1 := channel_lower (a * 65535) (2 * ⌊a * 65535⌋) hx0 hx1 (by
    have := Int.floor_le (a * 65535)
    push_cast
    linarith)
  have hK2 := channel_upper (a * 65535) (2 * ⌊a * 65535⌋ + 2) hx0 hx1 (by
    have := Int.lt_floor_add_one (a * 65535)
    push_cast
    linarith)
  have hq : ((quantize a : ℕ) : ℤ) = ⌊roundF64 (roundF32 (a * 65535) + 1 / 2)⌋ := by
    unfold quantize toUint
    rw [Nat.mod_eq_of_lt (by omega)]
    exact Int.toNat_of_nonneg (by omega)
  refine ⟨hq, by omega, ⟨by omega, by omega⟩, ⟨by omega, by omega⟩⟩

/-! ### The four bytes -/

/-- C1, as amended: for a pair with both components in `[0, 1]`, `convertVec2ToUintsetRGB`
stores the four bytes `[A mod 256, A div 256, B mod 256, B div 256]` at `ptr[0..3]` and nothing
elsewhere, where `A` is the floor of `a * 65535` rounded to `float` plus `1/2` (the sum
rounded to `double`), and `B` likewise for `b`; `A` and `B` are at most `65535`, each is
`floor(x * 65535 + 1/2)` of its component or one more, and `ptr[0] + 256 * ptr[1] = A`,
`ptr[2] + 256 * ptr[3] = B`. -/
theorem convertVec2ToUintsetRGB_bytes (mem : ℕ → ℕ) (ptr : ℕ) (val : Vec2f)
    (ha0 : 0 ≤ val.x) (ha1 : val.x ≤ 1) (hb0 : 0 ≤ val.y) (hb1 : val.y ≤ 1) :
    ∃ A B : ℕ, (A : ℤ) = ⌊roundF64 (roundF32 (val.x * 65535) + 1 / 2)⌋ ∧
      (B : ℤ) = ⌊roundF64 (roundF32 (val.y * 65535) + 1 / 2)⌋ ∧
      (⌊val.x * 65535 + 1 / 2⌋ ≤ (A : ℤ) ∧ (A : ℤ) ≤ ⌊val.x * 65535 + 1 / 2⌋ + 1) ∧
      (⌊val.y * 65535 + 1 / 2⌋ ≤ (B : ℤ) ∧ (B : ℤ) ≤ ⌊val.y * 65535 + 1 / 2⌋ + 1) ∧
      A ≤ 65535 ∧ B ≤ 65535 ∧
      convertVec2ToUintsetRGB mem ptr val ptr = A % 256 ∧
      convertVec2ToUintsetRGB mem ptr val (ptr + 1) = A / 256 ∧
      convertVec2ToUintsetRGB mem ptr val (ptr + 2) = B % 256 ∧
      convertVec2ToUintsetRGB mem ptr val (ptr + 3) = B / 256 ∧
      convertVec2ToUintsetRGB mem ptr val ptr
        + 256 * convertVec2ToUintsetRGB mem ptr val (ptr + 1) = A ∧
      convertVec2ToUintsetRGB mem ptr val (ptr + 2)
        + 256 * convertVec2ToUintsetRGB mem ptr val (ptr + 3) = B ∧
      ∀ q, (q < ptr ∨ ptr + 4 ≤ q) → convertVec2ToUintsetRGB mem ptr val q = mem q := by
  obtain ⟨hAz, hA16, hAF, _⟩ := quantize_channel val.x ha0 ha1
  obtain ⟨hBz, hB16, hBF, _⟩ := quantize_channel val.y hb0 hb1
  refine ⟨quantize val.x, quantize val.y, hAz, hBz, hAF, hBF, hA16, hB16, ?_⟩
  simp only [convertVec2ToUintsetRGB_apply]
  generalize quantize val.x = A at hA16
  generalize quantize val.y = B at hB16
  have e1 : ¬ ptr = ptr + 3 := by omega
  have e2 : ¬ ptr = ptr + 2 := by omega
  have e3 : ¬ ptr = ptr + 1 := by omega
  have e4 : ¬ ptr + 1 = ptr + 3 := by omega
  have e5 : ¬ ptr + 1 = ptr + 2 := by omega
  have e6 : ¬ ptr + 2 = ptr + 3 := by omega
  simp only [e1, e2, e3, e4, e5, e6, if_true, if_false]
  refine ⟨trivial, ?_, trivial, ?_, ?_, ?_, ?_⟩
  · omega
  · omega
  · omega
  · omega
  · intro q hq
    have q1 : ¬ q = ptr + 3 := by omega
    have q2 : ¬ q = ptr + 2 := by omega
    have q3 : ¬ q = ptr + 1 := by omega
    have q4 : ¬ q = ptr := by omega
    simp only [q1, q2, q3, q4, if_false]

/-- C1 at the pair `(1/2, 1)` stored at offset `0` of a zeroed buffer. -/
theorem convertVec2ToUintsetRGB_bytes_witness :
    ((0 : ℚ) ≤ (⟨1 / 2, 1⟩ : Vec2f).x ∧ (⟨1 / 2, 1⟩ : Vec2f).x ≤ 1 ∧
      (0 : ℚ) ≤ (⟨1 / 2, 1⟩ : Vec2f).y ∧ (⟨1 / 2, 1⟩ : Vec2f).y ≤ 1) ∧
    ∃ A B : ℕ,
      (A : ℤ) = ⌊roundF64 (roundF32 ((⟨1 / 2, 1⟩ : Vec2f).x * 65535) + 1 / 2)⌋ ∧
      (B : ℤ) = ⌊roundF64 (roundF32 ((⟨1 / 2, 1⟩ : Vec2f).y * 65535) + 1 / 2)⌋ ∧
      (⌊(⟨1 / 2, 1⟩ : Vec2f).x * 65535 + 1 / 2⌋ ≤ (A : ℤ) ∧
        (A : ℤ) ≤ ⌊(⟨1 / 2, 1⟩ : Vec2f).x * 65535 + 1 / 2⌋ + 1) ∧
      (⌊(⟨1 / 2, 1⟩ : Vec2f).y * 65535 + 1 / 2⌋ ≤ (B : ℤ) ∧
        (B : ℤ) ≤ ⌊(⟨1 / 2, 1⟩ : Vec2f).y * 65535 + 1 / 2⌋ + 1) ∧
      A ≤ 65535 ∧ B ≤ 65535 ∧
      convertVec2ToUintsetRGB (fun _ => 0) 0 ⟨1 / 2, 1⟩ 0 = A % 256 ∧
      convertVec2ToUintsetRGB (fun _ => 0) 0 ⟨1 / 2, 1⟩ (0 + 1) = A / 256 ∧
      convertVec2ToUintsetRGB (fun _ => 0) 0 ⟨1 / 2, 1⟩ (0 + 2) = B % 256 ∧
      convertVec2ToUintsetRGB (fun _ => 0) 0 ⟨1 / 2, 1⟩ (0 + 3) = B / 256 ∧
      convertVec2ToUintsetRGB (fun _ => 0) 0 ⟨1 / 2, 1⟩ 0
        + 256 * convertVec2ToUintsetRGB (fun _ => 0) 0 ⟨1 / 2, 1⟩ (0 + 1) = A ∧
      convertVec2ToUintsetRGB (fun _ => 0) 0 ⟨1 / 2, 1⟩ (0 + 2)
        + 256 * convertVec2ToUintsetRGB (fun _ => 0) 0 ⟨1 / 2, 1⟩ (0 + 3) = B ∧
      ∀ q, (q < 0 ∨ 0 + 4 ≤ q) →
        convertVec2ToUintsetRGB (fun _ => 0) 0 ⟨1 / 2, 1⟩ q = (fun _ => 0) q :=
  ⟨⟨by norm_num, by norm_num, by norm_num, by norm_num⟩,
    convertVec2ToUintsetRGB_bytes (fun _ => 0) 0 ⟨1 / 2, 1⟩
      (by norm_num) (by norm_num) (by norm_num) (by norm_num)⟩

/-- The `float` nearest to `a * 65535` for the `float` `a = 16744319 / 2^24` (bit pattern
`0x3f7f7f7f`). -/
theorem roundF32_product_example :
    roundF32 ((16744319 / 16777216 : ℚ) * 65535) = 130813 / 2 := by
  have hlog : Int.log 2 |(16744319 / 16777216 : ℚ) * 65535| = 15 :=
    log2_eq_of_zpow_bounds _ 15 (by norm_num) (by norm_num)
  unfold roundF32 roundFloat
  simp only [hlog]
  norm_num [roundHalfEven]

theorem roundF64_sum_example : roundF64 (130813 / 2 + 1 / 2) = 65407 := by
  have hlog : Int.log 2 |(130813 / 2 + 1 / 2 : ℚ)| = 15 :=
    log2_eq_of_zpow_bounds _ 15 (by norm_num) (by norm_num)
  unfold roundF64 roundFloat
  simp only [hlog]
  norm_num [roundHalfEven]

theorem toUint_example : toUint 65407 = 65407 := by
  unfold toUint
  have hfl : ⌊(65407 : ℚ)⌋ = 65407 := Int.floor_eq_iff.mpr ⟨by norm_num, by norm_num⟩
  rw [hfl]
  rfl

/-- The channel the encoder computes for the `float` `a = 16744319 / 2^24`. -/
theorem quantize_example : quantize (16744319 / 16777216) = 65407 :=
  calc quantize (16744319 / 16777216)
      = toUint (roundF64 (roundF32 ((16744319 / 16777216 : ℚ) * 65535) + 1 / 2)) := rfl
    _ = toUint (roundF64 (130813 / 2 + 1 / 2)) := by rw [roundF32_product_example]
    _ = toUint 65407 := by rw [roundF64_sum_example]
    _ = 65407 := toUint_example

/-- The channel the encoder computes for the `float` `a = 65537 / 2^33`: the product
`(2^32 - 1) / 2^33` rounds to `1/2` in `float`, the sum is `1`, while
`floor(a * 65535 + 1/2) = 0`. -/
theorem quantize_example_small :
    quantize (65537 / 8589934592) = 1 ∧ ⌊(65537 / 8589934592 : ℚ) * 65535 + 1 / 2⌋ = 0 := by
  have hlog : Int.log 2 |(65537 / 8589934592 : ℚ) * 65535| = -2 :=
    log2_eq_of_zpow_bounds _ (-2) (by norm_num) (by norm_num)
  have h32 : roundF32 ((65537 / 8589934592 : ℚ) * 65535) = 1 / 2 := by
    unfold roundF32 roundFloat
    simp only [hlog]
    norm_num [roundHalfEven]
  have hlog1 : Int.log 2 |(1 / 2 + 1 / 2 : ℚ)| = 0 :=
    log2_eq_of_zpow_bounds _ 0 (by norm_num) (by norm_num)
  have h64 : roundF64 (1 / 2 + 1 / 2) = 1 := by
    unfold roundF64 roundFloat
    simp only [hlog1]
    norm_num [roundHalfEven]
  have hu : toUint 1 = 1 := by
    unfold toUint
    have hfl : ⌊(1 : ℚ)⌋ = 1 := Int.floor_eq_iff.mpr ⟨by norm_num, by norm_num⟩
    rw [hfl]
    rfl
  constructor
  · calc quantize (65537 / 8589934592)
        = toUint (roundF64 (roundF32 ((65537 / 8589934592 : ℚ) * 65535) + 1 / 2)) := rfl
      _ = toUint (roundF64 (1 / 2 + 1 / 2)) := by rw [h32]
      _ = toUint 1 := by rw [h64]
      _ = 1 := hu
  · exact Int.floor_eq_iff.mpr ⟨by norm_num, by norm_num⟩

/-- The two bytes of the first channel, from the value of the channel. -/
theorem convertVec2ToUintsetRGB_first_channel (mem : ℕ → ℕ) (val : Vec2f) (A : ℕ)
    (h : quantize val.x = A) :
    convertVec2ToUintsetRGB mem 0 val 0 = A % 256 ∧
      convertVec2ToUintsetRGB mem 0 val 1 = A / 256 % 256 := by
  constructor
  · rw [convertVec2ToUintsetRGB_apply, if_neg (by decide), if_neg (by decide),
      if_neg (by decide), if_pos rfl, h]
  · rw [convertVec2ToUintsetRGB_apply, if_neg (by decide), if_neg (by decide),
      if_pos (by decide), h]

/-- C1 as stated fails: for the `float` `a = 16744319 / 2^24` (bit pattern `0x3f7f7f7f`, in
`[0, 1]`) the exact value `floor(a * 65535 + 1/2)` is `65406`, but the product rounds to
`65406.5` in `float` and the bytes stored are `[127, 255]`, the channel `65407`. -/
theorem convertVec2ToUintsetRGB_rounding_counterexample :
    ⌊(16744319 / 16777216 : ℚ) * 65535 + 1 / 2⌋ = 65406 ∧
      convertVec2ToUintsetRGB (fun _ => 0) 0 ⟨16744319 / 16777216, 0⟩ 0 = 127 ∧
      convertVec2ToUintsetRGB (fun _ => 0) 0 ⟨16744319 / 16777216, 0⟩ 1 = 255 ∧
      convertVec2ToUintsetRGB (fun _ => 0) 0 ⟨16744319 / 16777216, 0⟩ 0
        + 256 * convertVec2ToUintsetRGB (fun _ => 0) 0 ⟨16744319 / 16777216, 0⟩ 1
        = 65407 :=
  have hb := convertVec2ToUintsetRGB_first_channel (fun _ => 0)
    ⟨16744319 / 16777216, 0⟩ 65407 quantize_example
  have h0 : convertVec2ToUintsetRGB (fun _ => 0) 0 ⟨16744319 / 16777216, 0⟩ 0 = 127 :=
    hb.1.trans (by decide)
  have h1 : convertVec2ToUintsetRGB (fun _ => 0) 0 ⟨16744319 / 16777216, 0⟩ 1 = 255 :=
    hb.2.trans (by decide)
  ⟨Int.floor_eq_iff.mpr ⟨by norm_num, by norm_num⟩, h0, h1, by rw [h0, h1]⟩

/-! ### Round trip -/

/-- The two channels read back from the four bytes are the two quantised values. -/
theorem convertVec2ToUintsetRGB_channels (mem : ℕ → ℕ) (ptr : ℕ) (val : Vec2f)
    (ha0 : 0 ≤ val.x) (ha1 : val.x ≤ 1) (hb0 : 0 ≤ val.y) (hb1 : val.y ≤ 1) :
    convertVec2ToUintsetRGB mem ptr val ptr
        + 256 * convertVec2ToUintsetRGB mem ptr val (ptr + 1) = quantize val.x ∧
      convertVec2ToUintsetRGB mem ptr val (ptr + 2)
        + 256 * convertVec2ToUintsetRGB mem ptr val (ptr + 3) = quantize val.y := by
  obtain ⟨_, hA16, _, _⟩ := quantize_channel val.x ha0 ha1
  obtain ⟨_, hB16, _, _⟩ := quantize_channel val.y hb0 hb1
  simp only [convertVec2ToUintsetRGB_apply]
  generalize quantize val.x = A at hA16
  generalize quantize val.y = B at hB16
  have e1 : ¬ ptr = ptr + 3 := by omega
  have e2 : ¬ ptr = ptr + 2 := by omega
  have e3 : ¬ ptr = ptr + 1 := by omega
  have e4 : ¬ ptr + 1 = ptr + 3 := by omega
  have e5 : ¬ ptr + 1 = ptr + 2 := by omega
  have e6 : ¬ ptr + 2 = ptr + 3 := by omega
  simp only [e1, e2, e3, e4, e5, e6, if_true, if_false]
  constructor <;> omega

/-- A channel that is `floor(a * 65535)` or one more, divided by the scale, is within
`1/65535` of `a`. -/
theorem decode_floor_close (a : ℚ) (n : ℕ)
    (h : ⌊a * 65535⌋ ≤ (n : ℤ) ∧ (n : ℤ) ≤ ⌊a * 65535⌋ + 1) :
    |(n : ℚ) / 65535 - a| ≤ 1 / 65535 := by
  have hle : ((⌊a * 65535⌋ : ℤ) : ℚ) ≤ a * 65535 := Int.floor_le _
  have hlt : a * 65535 < ((⌊a * 65535⌋ : ℤ) : ℚ) + 1 := Int.lt_floor_add_one _
  have hn1 : ((⌊a * 65535⌋ : ℤ) : ℚ) ≤ (n : ℚ) := by exact_mod_cast h.1
  have hn2 : (n : ℚ) ≤ ((⌊a * 65535⌋ : ℤ) : ℚ) + 1 := by exact_mod_cast h.2
  rw [abs_le]
  constructor
  · rw [le_sub_iff_add_le, le_div_iff₀ (by norm_num)]
    linarith
  · rw [sub_le_iff_le_add, div_le_iff₀ (by norm_num)]
    linarith

/-- C2: for a pair with both components in `[0, 1]`, decoding the four bytes written by
`convertVec2ToUintsetRGB` as `(ptr[0] + 256 * ptr[1]) / 65535` and
`(ptr[2] + 256 * ptr[3]) / 65535` gives values within `1/65535` of the two components. -/
theorem convertVec2ToUintsetRGB_roundtrip (mem : ℕ → ℕ) (ptr : ℕ) (val : Vec2f)
    (ha0 : 0 ≤ val.x) (ha1 : val.x ≤ 1) (hb0 : 0 ≤ val.y) (hb1 : val.y ≤ 1) :
    |decodeChannel (convertVec2ToUintsetRGB mem ptr val ptr)
        (convertVec2ToUintsetRGB mem ptr val (ptr + 1)) - val.x| ≤ 1 / 65535 ∧
      |decodeChannel (convertVec2ToUintsetRGB mem ptr val (ptr + 2))
        (convertVec2ToUintsetRGB mem ptr val (ptr + 3)) - val.y| ≤ 1 / 65535 := by
  obtain ⟨hA, hB⟩ := convertVec2ToUintsetRGB_channels mem ptr val ha0 ha1 hb0 hb1
  obtain ⟨_, _, _, hAK⟩ := quantize_channel val.x ha0 ha1
  obtain ⟨_, _, _, hBK⟩ := quantize_channel val.y hb0 hb1
  unfold decodeChannel
  rw [hA, hB]
  exact ⟨decode_floor_close val.x _ hAK, decode_floor_close val.y _ hBK⟩

/-- C2 at the pair `(1/3, 2/3)` stored at offset `8` of a zeroed buffer. -/
theorem convertVec2ToUintsetRGB_roundtrip_witness :
    ((0 : ℚ) ≤ (⟨1 / 3, 2 / 3⟩ : Vec2f).x ∧ (⟨1 / 3, 2 / 3⟩ : Vec2f).x ≤ 1 ∧
      (0 : ℚ) ≤ (⟨1 / 3, 2 / 3⟩ : Vec2f).y ∧ (⟨1 / 3, 2 / 3⟩ : Vec2f).y ≤ 1) ∧
    (|decodeChannel (convertVec2ToUintsetRGB (fun _ => 0) 8 ⟨1 / 3, 2 / 3⟩ 8)
        (convertVec2ToUintsetRGB (fun _ => 0) 8 ⟨1 / 3, 2 / 3⟩ (8 + 1))
        - (⟨1 / 3, 2 / 3⟩ : Vec2f).x| ≤ 1 / 65535 ∧
      |decodeChannel (convertVec2ToUintsetRGB (fun _ => 0) 8 ⟨1 / 3, 2 / 3⟩ (8 + 2))
        (convertVec2ToUintsetRGB (fun _ => 0) 8 ⟨1 / 3, 2 / 3⟩ (8 + 3))
        - (⟨1 / 3, 2 / 3⟩ : Vec2f).y| ≤ 1 / 65535) :=
  ⟨⟨by norm_num, by norm_num, by norm_num, by norm_num⟩,
    convertVec2ToUintsetRGB_roundtrip (fun _ => 0) 8 ⟨1 / 3, 2 / 3⟩
      (by norm_num) (by norm_num) (by norm_num) (by norm_num)⟩

/-! ## Sample count -/

/-- For a 32-bit count `c ≥ 1` neither reduction in `numSamplesOf` changes the value. -/
theorem numSamplesOf_eq_pow (c : ℕ) (h1 : 1 ≤ c) (h32 : c < 2 ^ 32) :
    numSamplesOf c = 2 ^ Nat.log2 c := by
  have hc : c ≠ 0 := by omega
  have hlog : Nat.log2 c < 32 := (Nat.log2_lt hc).mpr h32
  have hle : 2 ^ Nat.log2 c ≤ c := Nat.log2_self_le hc
  unfold numSamplesOf
  rw [Nat.mod_eq_of_lt (a := Nat.log2 c) (by omega), Nat.mod_eq_of_lt (by omega)]

/-- The binary logarithm of a number between `2^k` and `2^(k+1)`. -/
theorem log2_eq_of_bounds (n k : ℕ) (hlo : 2 ^ k ≤ n) (hhi : n < 2 ^ (k + 1)) :
    Nat.log2 n = k := by
  have hn : n ≠ 0 := by
    have := Nat.two_pow_pos k
    omega
  have h1 : k ≤ Nat.log2 n := (Nat.le_log2 hn).mpr hlo
  have h2 : Nat.log2 n < k + 1 := (Nat.log2_lt hn).mpr hhi
  omega

theorem numSamplesOf_1000 : numSamplesOf 1000 = 512 := by
  rw [numSamplesOf_eq_pow 1000 (by decide) (by decide),
    log2_eq_of_bounds 1000 9 (by decide) (by decide)]
  rfl

theorem numSamplesOf_1024 : numSamplesOf 1024 = 1024 := by
  rw [numSamplesOf_eq_pow 1024 (by decide) (by decide),
    log2_eq_of_bounds 1024 10 (by decide) (by decide)]
  rfl

/-- C3: for a configured sample count `c ≥ 1` (a `uint`, so below `2^32`) the number of samples
`processRoughnessNoVLut` computes is a power of two with `numSamples ≤ c < 2 * numSamples`,
and it is the count handed both to the cache builder and to the grid worker. -/
theorem processRoughnessNoVLut_numSamples (c : ℕ) (h1 : 1 ≤ c) (h32 : c < 2 ^ 32) :
    (∃ j, numSamplesOf c = 2 ^ j) ∧ numSamplesOf c ≤ c ∧ c < 2 * numSamplesOf c ∧
      ∀ (sqrt : ℚ → ℚ) (importanceSampleGGX : ℕ → ℕ → ℚ → Vec3f) (fresh : Fresh)
        (cacheSchedule lutSchedule : List (ℕ × ℕ)) (self : RougnessNoVLUT),
        self._nbSamples = c →
        processRoughnessNoVLut sqrt importanceSampleGGX fresh cacheSchedule lutSchedule self =
          writeImage fresh.data self._size self._size
            (parallelFor lutSchedule
              (Worker.call sqrt
                (prepareCacheGGX importanceSampleGGX fresh.cache cacheSchedule
                  (numSamplesOf c) self._size).cell
                ⟨numSamplesOf c, self._size⟩)
              self._lut).cell := by
  have hc : c ≠ 0 := by omega
  have hpow := numSamplesOf_eq_pow c h1 h32
  refine ⟨⟨Nat.log2 c, hpow⟩, ?_, ?_, ?_⟩
  · rw [hpow]
    exact Nat.log2_self_le hc
  · rw [hpow]
    have h := Nat.lt_log2_self (n := c)
    rw [Nat.pow_succ] at h
    omega
  · intro sqrt importanceSampleGGX fresh cacheSchedule lutSchedule self hself
    subst hself
    rfl

/-- C3 at the configured count `1000`. -/
theorem processRoughnessNoVLut_numSamples_witness :
    (1 ≤ 1000 ∧ 1000 < 2 ^ 32) ∧
      ((∃ j, numSamplesOf 1000 = 2 ^ j) ∧ numSamplesOf 1000 ≤ 1000 ∧
        1000 < 2 * numSamplesOf 1000) :=
  ⟨⟨by decide, by decide⟩,
    (processRoughnessNoVLut_numSamples 1000 (by decide) (by decide)).1,
    (processRoughnessNoVLut_numSamples 1000 (by decide) (by decide)).2.1,
    (processRoughnessNoVLut_numSamples 1000 (by decide) (by decide)).2.2.1⟩

/-! ## Command line -/

/-- C4: `main` reads the argument of `-n` into its local `samples` and then constructs the
generator without it, so the generator is configured with the default `1024` whatever `-n`
says: with `-n N` and an output path the count integrated with is `1024`, and with `-n 8` it
is not `8`. -/
theorem main_numSamples_ignores_option (init : ℕ → Vec2f) (N : ℕ) (output : String)
    (rest : List String) :
    (main init [⟨'n', N⟩] (output :: rest)).numSamples = some 1024 ∧
      (main init [⟨'n', 8⟩] ["out.raw"]).numSamples ≠ some 8 ∧
      (main init [] (output :: rest)).numSamples = some 1024 := by
  refine ⟨?_, ?_, ?_⟩
  · simp [main, parseOpts, MainResult.numSamples, RougnessNoVLUT.new, defaultSamples,
      numSamplesOf_1024]
  · simp [main, parseOpts, MainResult.numSamples, RougnessNoVLUT.new, defaultSamples,
      numSamplesOf_1024]
  · simp [main, parseOpts, MainResult.numSamples, RougnessNoVLUT.new, defaultSamples,
      numSamplesOf_1024]

/-! ## Range of the integrators -/

theorem Buf.fill_zero {α : Type} (value : ℕ → α) (start : ℕ) (b : Buf α) :
    b.fill value start 0 = b := by
  cases b with
  | mk len cell writes =>
    simp only [Buf.fill, List.range'_zero, List.append_nil, Buf.mk.injEq, true_and, and_true]
    funext q
    have h : ¬ (start ≤ q ∧ q < start + 0) := by omega
    simp only [h, if_false]

theorem Buf.fill_store {α : Type} (value : ℕ → α) (start count : ℕ) (b : Buf α) :
    (b.fill value start count).store (start + count) (value (start + count))
      = b.fill value start (count + 1) := by
  simp only [Buf.fill, Buf.store, Buf.mk.injEq, true_and]
  constructor
  · funext q
    by_cases hq : q = start + count
    · subst hq
      have h : start ≤ start + count ∧ start + count < start + (count + 1) := by omega
      simp only [Function.update_same, h, and_self, if_true]
    · rw [Function.update_noteq hq]
      by_cases hin : start ≤ q ∧ q < start + count
      · have h : start ≤ q ∧ q < start + (count + 1) := by omega
        simp only [hin, h, and_self, if_true]
      · have h : ¬ (start ≤ q ∧ q < start + (count + 1)) := by omega
        simp only [hin, h, if_false]
  · rw [List.append_assoc, List.range'_1_concat]

/-- Storing `value q` at `q` for the offsets of a range, in order, fills the range. -/
theorem foldl_store_range' {α : Type} (value : ℕ → α) (start count : ℕ) (b : Buf α) :
    (List.range' start count).foldl (fun b q => b.store q (value q)) b
      = b.fill value start count := by
  induction count with
  | zero => simp only [List.range'_zero, List.foldl_nil, Buf.fill_zero]
  | succ n ih =>
    rw [List.range'_1_concat, List.foldl_append, ih]
    simp only [List.foldl_cons, List.foldl_nil]
    exact Buf.fill_store value start n b

/-- Two adjacent fills are one fill. -/
theorem Buf.fill_fill {α : Type} (value : ℕ → α) (start c₁ c₂ : ℕ) (b : Buf α) :
    (b.fill value start c₁).fill value (start + c₁) c₂ = b.fill value start (c₁ + c₂) := by
  rw [← foldl_store_range', ← foldl_store_range', ← foldl_store_range',
    ← List.foldl_append, List.range'_append_1, Nat.add_comm c₂ c₁]

/-- A loop over `x < count` that stores at `idx x = base + x` the value of that offset fills
the range `[base, base + count)`. -/
theorem foldl_store_row {α : Type} (idx : ℕ → ℕ) (val : ℕ → α) (value : ℕ → α)
    (base count : ℕ) (h : ∀ x, x < count → idx x = base + x ∧ val x = value (base + x))
    (b : Buf α) :
    (List.range count).foldl (fun b x => b.store (idx x) (val x)) b
      = b.fill value base count := by
  rw [← foldl_store_range', List.range'_eq_map_range, List.foldl_map]
  apply List.foldl_ext
  intro acc x hx
  obtain ⟨h1, h2⟩ := h x (List.mem_range.mp hx)
  rw [h1, h2]

/-- A loop over the rows `y = a, .., a + rows - 1` that fills row `y` fills all of them. -/
theorem foldl_fill_rows {α : Type} (value : ℕ → α) (k a rows : ℕ) (b : Buf α) :
    (List.range' a rows).foldl (fun b y => b.fill value (y * k) k) b
      = b.fill value (a * k) (rows * k) := by
  induction rows with
  | zero => simp only [List.range'_zero, List.foldl_nil, Nat.zero_mul, Buf.fill_zero]
  | succ n ih =>
    rw [List.range'_1_concat, List.foldl_append, ih]
    simp only [List.foldl_cons, List.foldl_nil]
    rw [Nat.add_mul, Buf.fill_fill, Nat.succ_mul]

theorem row_index (S y x : ℕ) (hx : x < S) : (y * S + x) / S = y ∧ (y * S + x) % S = x := by
  have hS : 0 < S := by omega
  constructor
  · rw [Nat.add_comm, Nat.add_mul_div_right _ _ hS, Nat.div_eq_of_lt hx, Nat.zero_add]
  · rw [Nat.add_comm, Nat.add_mul_mod_self_right, Nat.mod_eq_of_lt hx]

/-- One application of the grid worker fills the cells of its rows with their values. -/
theorem workerCall_eq_fill (sqrt : ℚ → ℚ) (cache : ℕ → Vec3f) (w : Worker) (a b : ℕ)
    (lut : Buf Vec2f) :
    Worker.call sqrt cache w a b lut
      = lut.fill (w.cellValue sqrt cache) (a * w._size) ((b - a) * w._size) := by
  unfold Worker.call
  rw [← foldl_fill_rows]
  apply List.foldl_ext
  intro acc y _
  apply foldl_store_row
  intro x hx
  obtain ⟨hd, hm⟩ := row_index w._size y x hx
  refine ⟨Nat.add_comm _ _, ?_⟩
  simp only [Worker.cellValue, hd, hm]

theorem count_range' (start count q : ℕ) :
    (List.range' start count).count q = if start ≤ q ∧ q < start + count then 1 else 0 := by
  by_cases h : start ≤ q ∧ q < start + count
  · rw [if_pos h]
    exact List.count_eq_one_of_mem (List.nodup_range' start count)
      (List.mem_range'_1.mpr h)
  · rw [if_neg h]
    exact List.count_eq_zero_of_not_mem (fun hm => h (List.mem_range'_1.mp hm))

/-- The buffer after a run of `parallel_for` whose body fills the rows of its band: a cell
holds its value when some band of the schedule covers it, and has been stored to once for
every band that covers it. -/
theorem parallelFor_fill {α : Type} (value : ℕ → α) (k : ℕ) (schedule : List (ℕ × ℕ))
    (b : Buf α) :
    (parallelFor schedule
        (fun a c buf => buf.fill value (a * k) ((c - a) * k)) b).len = b.len ∧
      (∀ q, (parallelFor schedule
          (fun a c buf => buf.fill value (a * k) ((c - a) * k)) b).cell q
        = if 0 < schedule.countP (InBand k q) then value q else b.cell q) ∧
      (∀ q, (parallelFor schedule
          (fun a c buf => buf.fill value (a * k) ((c - a) * k)) b).writes.count q
        = b.writes.count q + schedule.countP (InBand k q)) := by
  induction schedule generalizing b with
  | nil =>
    refine ⟨rfl, ?_, ?_⟩
    · intro q
      simp [parallelFor]
    · intro q
      simp [parallelFor]
  | cons band rest ih =>
    have hstep : parallelFor (band :: rest)
        (fun a c buf => buf.fill value (a * k) ((c - a) * k)) b
        = parallelFor rest (fun a c buf => buf.fill value (a * k) ((c - a) * k))
            (b.fill value (band.1 * k) ((band.2 - band.1) * k)) := rfl
    rw [hstep]
    obtain ⟨h1, h2, h3⟩ := ih (b.fill value (band.1 * k) ((band.2 - band.1) * k))
    refine ⟨h1, ?_, ?_⟩
    · intro q
      rw [h2 q, List.countP_cons]
      by_cases hb : InBand k q band = true
      · have hin : band.1 * k ≤ q ∧ q < band.1 * k + (band.2 - band.1) * k := by
          simpa [InBand] using hb
        have hpos : 0 < List.countP (InBand k q) rest + 1 := by omega
        rw [if_pos hb, if_pos hpos]
        simp only [Buf.fill, hin, and_self, if_true, ite_self]
      · have hin : ¬ (band.1 * k ≤ q ∧ q < band.1 * k + (band.2 - band.1) * k) := by
          simpa [InBand] using hb
        rw [if_neg hb, Nat.add_zero]
        simp only [Buf.fill, hin, if_false]
    · intro q
      rw [h3 q, List.countP_cons]
      simp only [Buf.fill, List.count_append, count_range']
      by_cases hb : InBand k q band = true
      · have hin : band.1 * k ≤ q ∧ q < band.1 * k + (band.2 - band.1) * k := by
          simpa [InBand] using hb
        rw [if_pos hin, if_pos hb]
        omega
      · have hin : ¬ (band.1 * k ≤ q ∧ q < band.1 * k + (band.2 - band.1) * k) := by
          simpa [InBand] using hb
        rw [if_neg hin, if_neg hb]
        omega

theorem IsSplit.le {a b : ℕ} {bands : List (ℕ × ℕ)} (h : IsSplit a b bands) : a ≤ b := by
  induction bands generalizing a with
  | nil => exact Nat.le_of_eq h
  | cons band rest ih =>
    obtain ⟨h1, h2, h3⟩ := h
    have := ih h3
    omega

/-- Every offset of the rows `[a, b)` lies in exactly one band of a split of `[a, b)`, and no
other offset lies in any. -/
theorem IsSplit.countP_inBand (k q : ℕ) {a b : ℕ} {bands : List (ℕ × ℕ)}
    (h : IsSplit a b bands) :
    bands.countP (InBand k q) = if a * k ≤ q ∧ q < b * k then 1 else 0 := by
  induction bands generalizing a with
  | nil =>
    have hab : a = b := h
    subst hab
    have hn : ¬ (a * k ≤ q ∧ q < a * k) := by omega
    simp only [List.countP_nil, hn, if_false]
  | cons band rest ih =>
    obtain ⟨h1, h2, h3⟩ := h
    have hle := IsSplit.le h3
    rw [List.countP_cons, ih h3]
    have e1 : band.1 * k + (band.2 - band.1) * k = band.2 * k := by
      rw [← Nat.add_mul]
      congr 1
      omega
    have e2 : band.1 * k ≤ band.2 * k := Nat.mul_le_mul_right k h2
    have e3 : band.2 * k ≤ b * k := Nat.mul_le_mul_right k hle
    subst h1
    by_cases hb : InBand k q band = true
    · have hin : band.1 * k ≤ q ∧ q < band.1 * k + (band.2 - band.1) * k := by
        simpa [InBand] using hb
      have hn : ¬ (band.2 * k ≤ q ∧ q < b * k) := by omega
      have hy : band.1 * k ≤ q ∧ q < b * k := by omega
      rw [if_neg hn, if_pos hb, if_pos hy]
    · have hin : ¬ (band.1 * k ≤ q ∧ q < band.1 * k + (band.2 - band.1) * k) := by
        simpa [InBand] using hb
      rw [if_neg hb, Nat.add_zero]
      by_cases hr : band.2 * k ≤ q ∧ q < b * k
      · have hy : band.1 * k ≤ q ∧ q < b * k := by omega
        rw [if_pos hr, if_pos hy]
      · have hy : ¬ (band.1 * k ≤ q ∧ q < b * k) := by omega
        rw [if_neg hr, if_neg hy]

theorem workerCall_fun (sqrt : ℚ → ℚ) (cache : ℕ → Vec3f) (w : Worker) :
    Worker.call sqrt cache w
      = fun a c buf => buf.fill (w.cellValue sqrt cache) (a * w._size) ((c - a) * w._size) := by
  funext a c buf
  exact workerCall_eq_fill sqrt cache w a c buf

/-- The rows of a band, as offsets: `[a * k, b * k)` when `a ≤ b`. -/
theorem band_offsets (k a b : ℕ) (hab : a ≤ b) : a * k + (b - a) * k = b * k := by
  rw [← Nat.add_mul]
  congr 1
  omega

/-! ## Grid worker -/

/-- C7: for a fixed size, sample count and sample cache, applying `Worker::operator()` to the
bands of any split of the rows `[0, size)`, in any order, leaves the same grid as one
application to `[0, size)`, and stores exactly once to each of the `size * size` cells; one
application to a band `[a, b)` stores exactly once to each cell of linear index in
`[a * size, b * size)`, to no other, and leaves every other cell unchanged. -/
theorem worker_schedule_independent (sqrt : ℚ → ℚ) (cache : ℕ → Vec3f) (w : Worker)
    (lut : Buf Vec2f) (split schedule : List (ℕ × ℕ))
    (hsplit : IsSplit 0 w._size split) (hperm : schedule.Perm split) :
    (parallelFor schedule (Worker.call sqrt cache w) lut).cell
        = (Worker.call sqrt cache w 0 w._size lut).cell ∧
      (∀ q, (parallelFor schedule (Worker.call sqrt cache w) lut).writes.count q
        = lut.writes.count q + if q < w._size * w._size then 1 else 0) ∧
      (∀ (a b : ℕ) (buf : Buf Vec2f), a ≤ b →
        (∀ q, (Worker.call sqrt cache w a b buf).writes.count q
          = buf.writes.count q + if a * w._size ≤ q ∧ q < b * w._size then 1 else 0) ∧
        (∀ q, ¬ (a * w._size ≤ q ∧ q < b * w._size) →
          (Worker.call sqrt cache w a b buf).cell q = buf.cell q)) := by
  have hcount : ∀ q, schedule.countP (InBand w._size q)
      = if q < w._size * w._size then 1 else 0 := by
    intro q
    rw [hperm.countP_eq, IsSplit.countP_inBand w._size q hsplit]
    by_cases hq : q < w._size * w._size
    · rw [if_pos hq, if_pos ⟨by omega, hq⟩]
    · rw [if_neg hq, if_neg (fun h => hq h.2)]
  obtain ⟨_, hcell, hwrites⟩ :=
    parallelFor_fill (w.cellValue sqrt cache) w._size schedule lut
  refine ⟨?_, ?_, ?_⟩
  · funext q
    rw [workerCall_fun, hcell q, hcount q]
    simp only [Buf.fill, Nat.zero_mul, Nat.zero_add, Nat.sub_zero, Nat.zero_le, true_and]
    by_cases hq : q < w._size * w._size
    · rw [if_pos hq, if_pos hq, if_pos (by omega)]
    · rw [if_neg hq, if_neg hq, if_neg (by omega)]
  · intro q
    rw [workerCall_fun, hwrites q, hcount q]
  · intro a b buf hab
    have hoff := band_offsets w._size a b hab
    constructor
    · intro q
      rw [workerCall_eq_fill]
      simp only [Buf.fill, List.count_append, count_range', hoff]
    · intro q hq
      rw [workerCall_eq_fill]
      simp only [Buf.fill, hoff, hq, if_false]

/-- C7 on a grid of size `2` cut into two bands applied in reverse order. -/
theorem worker_schedule_independent_witness :
    (IsSplit 0 (⟨1, 2⟩ : Worker)._size [(0, 1), (1, 2)] ∧
      [((1 : ℕ), (2 : ℕ)), (0, 1)].Perm [(0, 1), (1, 2)]) ∧
    ((parallelFor [(1, 2), (0, 1)] (Worker.call (fun _ => 1) (fun _ => ⟨0, 0, 1⟩) ⟨1, 2⟩)
        (Buf.alloc 4 (fun _ => ⟨0, 0⟩))).cell
        = (Worker.call (fun _ => 1) (fun _ => ⟨0, 0, 1⟩) ⟨1, 2⟩ 0 (⟨1, 2⟩ : Worker)._size
            (Buf.alloc 4 (fun _ => ⟨0, 0⟩))).cell ∧
      (∀ q, (parallelFor [(1, 2), (0, 1)]
          (Worker.call (fun _ => 1) (fun _ => ⟨0, 0, 1⟩) ⟨1, 2⟩)
          (Buf.alloc 4 (fun _ => ⟨0, 0⟩))).writes.count q
        = (Buf.alloc 4 (fun _ => (⟨0, 0⟩ : Vec2f))).writes.count q
          + if q < (⟨1, 2⟩ : Worker)._size * (⟨1, 2⟩ : Worker)._size then 1 else 0)) :=
  ⟨⟨⟨rfl, by decide, rfl, by decide, rfl⟩, List.Perm.swap (0, 1) (1, 2) []⟩,
    (worker_schedule_independent (fun _ => 1) (fun _ => ⟨0, 0, 1⟩) ⟨1, 2⟩
      (Buf.alloc 4 (fun _ => ⟨0, 0⟩)) [(0, 1), (1, 2)] [(1, 2), (0, 1)]
      ⟨rfl, by decide, rfl, by decide, rfl⟩ (List.Perm.swap (0, 1) (1, 2) [])).1,
    (worker_schedule_independent (fun _ => 1) (fun _ => ⟨0, 0, 1⟩) ⟨1, 2⟩
      (Buf.alloc 4 (fun _ => ⟨0, 0⟩)) [(0, 1), (1, 2)] [(1, 2), (0, 1)]
      ⟨rfl, by decide, rfl, by decide, rfl⟩ (List.Perm.swap (0, 1) (1, 2) [])).2.1⟩

/-- The centre of bucket `i` of `S` lies strictly inside the unit interval. -/
theorem cell_centre_bounds (S i : ℕ) (hi : i < S) :
    0 < ((i : ℚ) + 1 / 2) / (S : ℚ) ∧ ((i : ℚ) + 1 / 2) / (S : ℚ) < 1 := by
  have hS : (0 : ℚ) < (S : ℚ) := by
    have : 0 < S := by omega
    exact_mod_cast this
  have hi' : (i : ℚ) + 1 ≤ (S : ℚ) := by exact_mod_cast hi
  have hnn : (0 : ℚ) ≤ (i : ℚ) := Nat.cast_nonneg i
  constructor
  · exact div_pos (by linarith) hS
  · rw [div_lt_one hS]
    linarith

/-- C9: for every row `y < S` and column `x < S`, one application of the grid worker to a band
that contains row `y` stores at linear index `x + y * S` the result of the integrator for
`roughnessLinear = (y + 1/2) / S`, `NoV = (x + 1/2) / S` and roughness index `y`; both
cell-centre values are strictly between `0` and `1`. -/
theorem worker_stores_cell (sqrt : ℚ → ℚ) (cache : ℕ → Vec3f) (w : Worker) (lut : Buf Vec2f)
    (a b y x : ℕ) (hy : y < w._size) (hx : x < w._size) (hay : a ≤ y) (hyb : y < b) :
    (Worker.call sqrt cache w a b lut).cell (x + y * w._size)
        = integrateBRDFMultiscatter sqrt cache (((y : ℚ) + 1 / 2) / (w._size : ℚ))
            (((x : ℚ) + 1 / 2) / (w._size : ℚ)) w._numSamples y ∧
      (Worker.call sqrt cache w a b lut).writes.count (x + y * w._size)
        = lut.writes.count (x + y * w._size) + 1 ∧
      (0 < ((y : ℚ) + 1 / 2) / (w._size : ℚ) ∧ ((y : ℚ) + 1 / 2) / (w._size : ℚ) < 1) ∧
      (0 < ((x : ℚ) + 1 / 2) / (w._size : ℚ) ∧ ((x : ℚ) + 1 / 2) / (w._size : ℚ) < 1) := by
  have hoff := band_offsets w._size a b (by omega)
  have h1 : a * w._size ≤ y * w._size := Nat.mul_le_mul_right _ hay
  have h2 : (y + 1) * w._size ≤ b * w._size := Nat.mul_le_mul_right _ hyb
  rw [Nat.succ_mul] at h2
  have hin : a * w._size ≤ x + y * w._size ∧ x + y * w._size < b * w._size := by omega
  obtain ⟨hd, hm⟩ := row_index w._size y x hx
  rw [Nat.add_comm] at hd hm
  refine ⟨?_, ?_, cell_centre_bounds _ _ hy, cell_centre_bounds _ _ hx⟩
  · rw [workerCall_eq_fill]
    simp only [Buf.fill, hoff, hin, and_self, if_true, Worker.cellValue, hd, hm]
    congr 1 <;> ring
  · rw [workerCall_eq_fill]
    simp only [Buf.fill, List.count_append, count_range', hoff, hin, and_self, if_true]

/-- C9 at row `1`, column `2` of a grid of size `4`, for the band `[0, 4)`. -/
theorem worker_stores_cell_witness :
    ((1 < (⟨8, 4⟩ : Worker)._size ∧ 2 < (⟨8, 4⟩ : Worker)._size) ∧ 0 ≤ 1 ∧ 1 < 4) ∧
    ((Worker.call (fun _ => 1) (fun _ => ⟨0, 0, 1⟩) ⟨8, 4⟩ 0 4
        (Buf.alloc 16 (fun _ => ⟨0, 0⟩))).cell (2 + 1 * (⟨8, 4⟩ : Worker)._size)
      = integrateBRDFMultiscatter (fun _ => 1) (fun _ => ⟨0, 0, 1⟩)
          ((((1 : ℕ) : ℚ) + 1 / 2) / (((⟨8, 4⟩ : Worker)._size : ℕ) : ℚ))
          ((((2 : ℕ) : ℚ) + 1 / 2) / (((⟨8, 4⟩ : Worker)._size : ℕ) : ℚ))
          (⟨8, 4⟩ : Worker)._numSamples 1) :=
  ⟨⟨⟨by decide, by decide⟩, by decide, by decide⟩,
    (worker_stores_cell (fun _ => 1) (fun _ => ⟨0, 0, 1⟩) ⟨8, 4⟩
      (Buf.alloc 16 (fun _ => ⟨0, 0⟩)) 0 4 1 2 (by decide) (by decide) (by decide)
      (by decide)).1⟩

/-! ## Raw writer -/

/-- Inside the pixel, the bytes stored do not depend on the rest of the buffer nor on where the
pixel lies. -/
theorem convertVec2ToUintsetRGB_local (mem : ℕ → ℕ) (ptr : ℕ) (val : Vec2f) (j : ℕ)
    (hj : j < 4) :
    convertVec2ToUintsetRGB mem ptr val (ptr + j)
      = convertVec2ToUintsetRGB (fun _ => 0) 0 val j := by
  rw [convertVec2ToUintsetRGB_apply, convertVec2ToUintsetRGB_apply]
  interval_cases j <;> simp

theorem convertVec2ToUintsetRGB_frame (mem : ℕ → ℕ) (ptr : ℕ) (val : Vec2f) (q : ℕ)
    (hq : q < ptr ∨ ptr + 4 ≤ q) : convertVec2ToUintsetRGB mem ptr val q = mem q := by
  rw [convertVec2ToUintsetRGB_apply]
  have q1 : ¬ q = ptr + 3 := by omega
  have q2 : ¬ q = ptr + 2 := by omega
  have q3 : ¬ q = ptr + 1 := by omega
  have q4 : ¬ q = ptr := by omega
  simp only [q1, q2, q3, q4, if_false]

/-- The byte buffer of `writeImage` after the pixels `0 .. count - 1` have been converted. -/
theorem writeImage_data (data0 : ℕ → ℕ) (buffer : ℕ → Vec2f) (count q : ℕ) :
    (List.range count).foldl
        (fun data i => convertVec2ToUintsetRGB data (i * 4) (buffer i)) data0 q
      = if q < count * 4 then convertVec2ToUintsetRGB (fun _ => 0) 0 (buffer (q / 4)) (q % 4)
        else data0 q := by
  induction count with
  | zero => simp
  | succ n ih =>
    rw [List.range_succ, List.foldl_append]
    simp only [List.foldl_cons, List.foldl_nil]
    by_cases h1 : q < n * 4
    · rw [convertVec2ToUintsetRGB_frame _ _ _ _ (Or.inl h1), ih, if_pos h1,
        if_pos (by omega)]
    · by_cases h2 : q < n * 4 + 4
      · have hq : q = n * 4 + q % 4 := by omega
        have hd : q / 4 = n := by omega
        rw [if_pos (by omega), hd]
        conv_lhs => rw [hq]
        exact convertVec2ToUintsetRGB_local _ _ _ _ (by omega)
      · rw [convertVec2ToUintsetRGB_frame _ _ _ _ (Or.inr (by omega)), ih, if_neg h1,
          if_neg (by omega)]

/-- C6, as amended: for a size `S` whose byte count `S * S * 4` fits an `int`
(`S * S * 4 < 2^31`), the byte stream `writeImage` produces for an `S × S` grid has
`S * S * 4` bytes, and for every row `y < S` and column `x < S` its four bytes from offset
`4 * (x + y * S)` on are the encoding of grid cell `x + y * S`; the stream starts with the
encoding of cell `0`, there is no header. -/
theorem writeImage_layout (data0 : ℕ → ℕ) (buffer : ℕ → Vec2f) (S y x : ℕ)
    (hy : y < S) (hx : x < S) (hint : S * S * 4 < 2 ^ 31) :
    ∃ bytes : List ℕ, writeImage data0 S S buffer = some bytes ∧
      bytes.length = S * S * 4 ∧
      (bytes.drop (4 * (x + y * S))).take 4 = encodePixel (buffer (x + y * S)) := by
  have hidx : x + y * S < S * S := by
    have h := Nat.mul_le_mul_right S (Nat.succ_le_of_lt hy)
    rw [Nat.succ_mul] at h
    omega
  refine ⟨(List.range (S * S * 4)).map
    ((List.range (S * S)).foldl
      (fun data i => convertVec2ToUintsetRGB data (i * 4) (buffer i)) data0), ?_, ?_, ?_⟩
  · simp only [writeImage, if_pos hint]
  · simp
  · apply List.ext_getElem?
    intro j
    by_cases hj : j < 4
    · have hlt : 4 * (x + y * S) + j < S * S * 4 := by omega
      have hd : (4 * (x + y * S) + j) / 4 = x + y * S := by omega
      have hm : (4 * (x + y * S) + j) % 4 = j := by omega
      simp [encodePixel, List.getElem?_take, List.getElem?_drop, hj,
        List.getElem?_range, hlt, writeImage_data, hd, hm]
    · have hnone : (List.range 4)[j]? = none :=
        List.getElem?_eq_none (by rw [List.length_range]; omega)
      simp [encodePixel, List.getElem?_take, hj, hnone]

/-- C6 for the grid of size `4`: `64` bytes, and the pixel of row `1`, column `2` at byte
offset `24`. -/
theorem writeImage_layout_witness :
    (((1 : ℕ) < 4 ∧ (2 : ℕ) < 4) ∧ 4 * 4 * 4 < 2 ^ 31) ∧
    ∃ bytes : List ℕ, writeImage (fun _ => 0) 4 4 (fun _ => ⟨1, 0⟩) = some bytes ∧
      bytes.length = 4 * 4 * 4 ∧
      (bytes.drop (4 * (2 + 1 * 4))).take 4
        = encodePixel ((fun _ => (⟨1, 0⟩ : Vec2f)) (2 + 1 * 4)) :=
  ⟨⟨⟨by decide, by decide⟩, by decide⟩,
    writeImage_layout (fun _ => 0) (fun _ => ⟨1, 0⟩) 4 1 2 (by decide) (by decide)
      (by decide)⟩

/-- C6 as stated fails: for `S = 23171` the byte count `S * S * 4 = 2147580964` is beyond the
largest `int`, the product in `writeImage` overflows and no stream of `S * S * 4` bytes is
produced. -/
theorem writeImage_overflow_counterexample :
    23171 * 23171 * 4 = 2147580964 ∧ ¬ (2147580964 < 2 ^ 31) ∧
      writeImage (fun _ => 0) 23171 23171 (fun _ => ⟨0, 0⟩) = none := by
  refine ⟨by norm_num, by norm_num, ?_⟩
  unfold writeImage
  rw [if_neg (by norm_num)]

/-! ## The scenario of size 4 -/

/-- C8, as amended: in a grid of size `4` the cell of row `0`, column `0` is the integrator's
result at `roughnessLinear = 1/8` and `NoV = 1/8`, and the Smith-Schlick parameter the
integrator derives from that `roughnessLinear` is `(1/8)² / 2 = 1/128`. -/
theorem scenario_size4_cell00 (sqrt : ℚ → ℚ) (cache : ℕ → Vec3f) (numSamples : ℕ)
    (lut : Buf Vec2f) :
    (Worker.call sqrt cache ⟨numSamples, 4⟩ 0 4 lut).cell 0
        = integrateBRDFMultiscatter sqrt cache (1 / 8) (1 / 8) numSamples 0 ∧
      schlickK (1 / 8) = (1 / 8) ^ 2 / 2 ∧ schlickK (1 / 8) = 1 / 128 := by
  refine ⟨?_, ?_, ?_⟩
  · rw [workerCall_eq_fill]
    simp only [Buf.fill, Worker.cellValue]
    norm_num
  · norm_num [schlickK]
  · norm_num [schlickK]

/-- C8 as stated fails: the parameter derived from `roughnessLinear = 1/8` is not
`((1/8)²)² / 2`. -/
theorem scenario_size4_k_counterexample :
    ¬ (schlickK (1 / 8) = ((1 / 8) ^ 2) ^ 2 / 2) := by
  norm_num [schlickK]

/-! ## Sample cache -/

/-- The loop body of `integrateBRDF` in terms of the shared evaluation of the sample. -/
theorem integrateBRDFStep_terms (sqrt : ℚ → ℚ) (roughnessLinear NoV : ℚ) (acc : ℚ × ℚ)
    (localH : Vec3f) :
    integrateBRDFStep sqrt roughnessLinear NoV acc localH
      = if (sampleTerms (upVector ⟨0, 0, 1⟩) sqrt roughnessLinear NoV localH).NoL > 0 then
          (acc.1 + (1 - (sampleTerms (upVector ⟨0, 0, 1⟩) sqrt roughnessLinear NoV localH).Fc)
              * (sampleTerms (upVector ⟨0, 0, 1⟩) sqrt roughnessLinear NoV localH).G_Vis,
            acc.2 + (sampleTerms (upVector ⟨0, 0, 1⟩) sqrt roughnessLinear NoV localH).Fc
              * (sampleTerms (upVector ⟨0, 0, 1⟩) sqrt roughnessLinear NoV localH).G_Vis)
        else acc := rfl

/-- The loop body of `integrateBRDFMultiscatter` in terms of the shared evaluation of the
sample. -/
theorem integrateBRDFMultiscatterStep_terms (sqrt : ℚ → ℚ) (roughnessLinear NoV : ℚ)
    (acc : ℚ × ℚ) (localH : Vec3f) :
    integrateBRDFMultiscatterStep sqrt roughnessLinear NoV acc localH
      = if (sampleTerms (upVector ⟨0, 0, 1⟩) sqrt roughnessLinear NoV localH).NoL > 0 then
          (acc.1 + (sampleTerms (upVector ⟨0, 0, 1⟩) sqrt roughnessLinear NoV localH).Fc
              * (sampleTerms (upVector ⟨0, 0, 1⟩) sqrt roughnessLinear NoV localH).G_Vis,
            acc.2 + (sampleTerms (upVector ⟨0, 0, 1⟩) sqrt roughnessLinear NoV localH).G_Vis)
        else acc := rfl

/-- With the normal `(0, 0, 1)` the test `|N.z| < 0.999` fails and `UpVector` is `(1, 0, 0)`. -/
theorem upVector_normal : upVector ⟨0, 0, 1⟩ = ⟨1, 0, 0⟩ := by
  unfold upVector
  rw [if_neg]
  norm_num

/-- C11, as amended: in both integrators the normal is `(0, 0, 1)`, so the test
`|N.z| < 0.999` fails at every call and `UpVector` is the orthogonal axis `(1, 0, 0)`; the
branch that picks `(0, 0, 1)` is the one never taken.  Both loop bodies are the shared
evaluation of the sample with `UpVector = (1, 0, 0)`. -/
theorem upVector_always_orthogonal_axis (sqrt : ℚ → ℚ) (roughnessLinear NoV : ℚ)
    (acc : ℚ × ℚ) (localH : Vec3f) :
    ¬ (|(⟨0, 0, 1⟩ : Vec3f).z| < 999 / 1000) ∧
      upVector ⟨0, 0, 1⟩ = ⟨1, 0, 0⟩ ∧
      integrateBRDFStep sqrt roughnessLinear NoV acc localH
        = (if (sampleTerms ⟨1, 0, 0⟩ sqrt roughnessLinear NoV localH).NoL > 0 then
            (acc.1 + (1 - (sampleTerms ⟨1, 0, 0⟩ sqrt roughnessLinear NoV localH).Fc)
                * (sampleTerms ⟨1, 0, 0⟩ sqrt roughnessLinear NoV localH).G_Vis,
              acc.2 + (sampleTerms ⟨1, 0, 0⟩ sqrt roughnessLinear NoV localH).Fc
                * (sampleTerms ⟨1, 0, 0⟩ sqrt roughnessLinear NoV localH).G_Vis)
          else acc) ∧
      integrateBRDFMultiscatterStep sqrt roughnessLinear NoV acc localH
        = (if (sampleTerms ⟨1, 0, 0⟩ sqrt roughnessLinear NoV localH).NoL > 0 then
            (acc.1 + (sampleTerms ⟨1, 0, 0⟩ sqrt roughnessLinear NoV localH).Fc
                * (sampleTerms ⟨1, 0, 0⟩ sqrt roughnessLinear NoV localH).G_Vis,
              acc.2 + (sampleTerms ⟨1, 0, 0⟩ sqrt roughnessLinear NoV localH).G_Vis)
          else acc) := by
  refine ⟨by norm_num, upVector_normal, ?_, ?_⟩
  · rw [integrateBRDFStep_terms, upVector_normal]
  · rw [integrateBRDFMultiscatterStep_terms, upVector_normal]

/-- C11 as stated fails: for the normal `(0, 0, 1)` of both integrators the test
`|N.z| < 0.999` is false and `UpVector` is not the axis `(0, 0, 1)` of the first branch. -/
theorem upVector_first_branch_counterexample :
    ¬ (|(⟨0, 0, 1⟩ : Vec3f).z| < 999 / 1000) ∧ upVector ⟨0, 0, 1⟩ ≠ ⟨0, 0, 1⟩ := by
  refine ⟨by norm_num, ?_⟩
  rw [upVector_normal]
  intro h
  have hx := congrArg Vec3f.x h
  norm_num at hx

/-- The accumulators of the split-sum loop over a list of evaluated samples. -/
theorem foldl_splitsum (ts : List SampleTerms) (acc : ℚ × ℚ) :
    ts.foldl (fun acc t =>
        if t.NoL > 0 then (acc.1 + (1 - t.Fc) * t.G_Vis, acc.2 + t.Fc * t.G_Vis) else acc) acc
      = (acc.1 + ((ts.filter (fun t => decide (t.NoL > 0))).map
            (fun t => (1 - t.Fc) * t.G_Vis)).sum,
          acc.2 + ((ts.filter (fun t => decide (t.NoL > 0))).map
            (fun t => t.Fc * t.G_Vis)).sum) := by
  induction ts generalizing acc with
  | nil => simp
  | cons t rest ih =>
    rw [List.foldl_cons, ih]
    by_cases h : t.NoL > 0
    · have hd : decide (t.NoL > 0) = true := decide_eq_true h
      rw [if_pos h, List.filter_cons]
      simp only [hd, if_true, List.map_cons, List.sum_cons]
      ext <;> simp only <;> ring
    · have hd : decide (t.NoL > 0) = false := decide_eq_false h
      rw [if_neg h, List.filter_cons]
      simp only [hd, Bool.false_eq_true, if_false]

/-- The accumulators of the multiscatter loop over a list of evaluated samples. -/
theorem foldl_multiscatter (ts : List SampleTerms) (acc : ℚ × ℚ) :
    ts.foldl (fun acc t =>
        if t.NoL > 0 then (acc.1 + t.Fc * t.G_Vis, acc.2 + t.G_Vis) else acc) acc
      = (acc.1 + ((ts.filter (fun t => decide (t.NoL > 0))).map
            (fun t => t.Fc * t.G_Vis)).sum,
          acc.2 + ((ts.filter (fun t => decide (t.NoL > 0))).map
            (fun t => t.G_Vis)).sum) := by
  induction ts generalizing acc with
  | nil => simp
  | cons t rest ih =>
    rw [List.foldl_cons, ih]
    by_cases h : t.NoL > 0
    · have hd : decide (t.NoL > 0) = true := decide_eq_true h
      rw [if_pos h, List.filter_cons]
      simp only [hd, if_true, List.map_cons, List.sum_cons]
      ext <;> simp only <;> ring
    · have hd : decide (t.NoL > 0) = false := decide_eq_false h
      rw [if_neg h, List.filter_cons]
      simp only [hd, Bool.false_eq_true, if_false]

/-- The visibility terms of a list of samples add up to the two split-sum sums. -/
theorem sum_G_Vis_split (ts : List SampleTerms) :
    (ts.map (fun t => t.G_Vis)).sum
      = (ts.map (fun t => (1 - t.Fc) * t.G_Vis)).sum
        + (ts.map (fun t => t.Fc * t.G_Vis)).sum := by
  induction ts with
  | nil => simp
  | cons t rest ih =>
    simp only [List.map_cons, List.sum_cons, ih]
    ring

/-- The accumulators of `integrateBRDF` before clamping, as sums over the contributing
samples. -/
theorem integrateBRDFSums_eq (sqrt : ℚ → ℚ) (cache : ℕ → Vec3f) (roughnessLinear NoV : ℚ)
    (numSamples roughnessIndex : ℕ) :
    integrateBRDFSums sqrt cache roughnessLinear NoV numSamples roughnessIndex
      = (((contributingSamples sqrt cache roughnessLinear NoV numSamples roughnessIndex).map
            (fun t => (1 - t.Fc) * t.G_Vis)).sum / (numSamples : ℚ),
          ((contributingSamples sqrt cache roughnessLinear NoV numSamples roughnessIndex).map
            (fun t => t.Fc * t.G_Vis)).sum / (numSamples : ℚ)) := by
  have hfold := foldl_splitsum
    ((List.range numSamples).map
      (fun i => sampleTerms (upVector ⟨0, 0, 1⟩) sqrt roughnessLinear NoV
        (cacheLineSampleGGX cache roughnessIndex numSamples i))) (0, 0)
  rw [List.foldl_map] at hfold
  simp only [zero_add] at hfold
  simp only [integrateBRDFSums, integrateBRDFStep_terms, contributingSamples, hfold]

/-- The accumulators of `integrateBRDFMultiscatter` before clamping, as sums over the
contributing samples. -/
theorem integrateBRDFMultiscatterSums_eq (sqrt : ℚ → ℚ) (cache : ℕ → Vec3f)
    (roughnessLinear NoV : ℚ) (numSamples roughnessIndex : ℕ) :
    integrateBRDFMultiscatterSums sqrt cache roughnessLinear NoV numSamples roughnessIndex
      = (((contributingSamples sqrt cache roughnessLinear NoV numSamples roughnessIndex).map
            (fun t => t.Fc * t.G_Vis)).sum / (numSamples : ℚ),
          ((contributingSamples sqrt cache roughnessLinear NoV numSamples roughnessIndex).map
            (fun t => t.G_Vis)).sum / (numSamples : ℚ)) := by
  have hfold := foldl_multiscatter
    ((List.range numSamples).map
      (fun i => sampleTerms (upVector ⟨0, 0, 1⟩) sqrt roughnessLinear NoV
        (cacheLineSampleGGX cache roughnessIndex numSamples i))) (0, 0)
  rw [List.foldl_map] at hfold
  simp only [zero_add] at hfold
  simp only [integrateBRDFMultiscatterSums, integrateBRDFMultiscatterStep_terms,
    contributingSamples, hfold]

/-- C12: for `numSamples ≥ 1` and any cache line, the accumulators of the two integrators
before clamping satisfy `A_multiscatter = B_splitsum` and
`B_multiscatter = A_splitsum + B_splitsum`; each accumulator times `numSamples` is the sum of
its term over exactly the samples with `NoL > 0`, a sample with `NoL ≤ 0` leaves both
accumulators of both variants unchanged, and each integrator returns its two accumulators
clamped to `[0, 1]`. -/
theorem integrators_accumulators (sqrt : ℚ → ℚ) (cache : ℕ → Vec3f) (roughnessLinear NoV : ℚ)
    (numSamples roughnessIndex : ℕ) (hn : 1 ≤ numSamples) :
    (integrateBRDFMultiscatterSums sqrt cache roughnessLinear NoV numSamples roughnessIndex).1
        = (integrateBRDFSums sqrt cache roughnessLinear NoV numSamples roughnessIndex).2 ∧
      (integrateBRDFMultiscatterSums sqrt cache roughnessLinear NoV numSamples
          roughnessIndex).2
        = (integrateBRDFSums sqrt cache roughnessLinear NoV numSamples roughnessIndex).1
          + (integrateBRDFSums sqrt cache roughnessLinear NoV numSamples roughnessIndex).2 ∧
      (integrateBRDFSums sqrt cache roughnessLinear NoV numSamples roughnessIndex).1
          * (numSamples : ℚ)
        = ((contributingSamples sqrt cache roughnessLinear NoV numSamples roughnessIndex).map
            (fun t => (1 - t.Fc) * t.G_Vis)).sum ∧
      (integrateBRDFSums sqrt cache roughnessLinear NoV numSamples roughnessIndex).2
          * (numSamples : ℚ)
        = ((contributingSamples sqrt cache roughnessLinear NoV numSamples roughnessIndex).map
            (fun t => t.Fc * t.G_Vis)).sum ∧
      (integrateBRDFMultiscatterSums sqrt cache roughnessLinear NoV numSamples
          roughnessIndex).1 * (numSamples : ℚ)
        = ((contributingSamples sqrt cache roughnessLinear NoV numSamples roughnessIndex).map
            (fun t => t.Fc * t.G_Vis)).sum ∧
      (integrateBRDFMultiscatterSums sqrt cache roughnessLinear NoV numSamples
          roughnessIndex).2 * (numSamples : ℚ)
        = ((contributingSamples sqrt cache roughnessLinear NoV numSamples roughnessIndex).map
            (fun t => t.G_Vis)).sum ∧
      (∀ t, t ∈ contributingSamples sqrt cache roughnessLinear NoV numSamples roughnessIndex ↔
        t.NoL > 0 ∧ ∃ i, i < numSamples ∧
          t = sampleTerms (upVector ⟨0, 0, 1⟩) sqrt roughnessLinear NoV
            (cacheLineSampleGGX cache roughnessIndex numSamples i)) ∧
      (∀ (acc : ℚ × ℚ) (localH : Vec3f),
        (sampleTerms (upVector ⟨0, 0, 1⟩) sqrt roughnessLinear NoV localH).NoL ≤ 0 →
        integrateBRDFStep sqrt roughnessLinear NoV acc localH = acc ∧
          integrateBRDFMultiscatterStep sqrt roughnessLinear NoV acc localH = acc) ∧
      integrateBRDF sqrt cache roughnessLinear NoV numSamples roughnessIndex
        = ⟨clampTo (integrateBRDFSums sqrt cache roughnessLinear NoV numSamples
              roughnessIndex).1 0 1,
            clampTo (integrateBRDFSums sqrt cache roughnessLinear NoV numSamples
              roughnessIndex).2 0 1⟩ ∧
      integrateBRDFMultiscatter sqrt cache roughnessLinear NoV numSamples roughnessIndex
        = ⟨clampTo (integrateBRDFMultiscatterSums sqrt cache roughnessLinear NoV numSamples
              roughnessIndex).1 0 1,
            clampTo (integrateBRDFMultiscatterSums sqrt cache roughnessLinear NoV numSamples
              roughnessIndex).2 0 1⟩ := by
  have hn0 : (numSamples : ℚ) ≠ 0 := by
    have : numSamples ≠ 0 := by omega
    exact_mod_cast this
  have hS := integrateBRDFSums_eq sqrt cache roughnessLinear NoV numSamples roughnessIndex
  have hM :=
    integrateBRDFMultiscatterSums_eq sqrt cache roughnessLinear NoV numSamples roughnessIndex
  refine ⟨?_, ?_, ?_, ?_, ?_, ?_, ?_, ?_, rfl, rfl⟩
  · rw [hS, hM]
  · rw [hS, hM]
    simp only
    rw [sum_G_Vis_split, add_div]
  · rw [hS]
    simp only
    field_simp
  · rw [hS]
    simp only
    field_simp
  · rw [hM]
    simp only
    field_simp
  · rw [hM]
    simp only
    field_simp
  · intro t
    simp only [contributingSamples, List.mem_filter, List.mem_map, List.mem_range,
      decide_eq_true_eq]
    constructor
    · rintro ⟨⟨i, hi, rfl⟩, hpos⟩
      exact ⟨hpos, i, hi, rfl⟩
    · rintro ⟨hpos, i, hi, rfl⟩
      exact ⟨⟨i, hi, rfl⟩, hpos⟩
  · intro acc localH hle
    have hnot : ¬ (sampleTerms (upVector ⟨0, 0, 1⟩) sqrt roughnessLinear NoV localH).NoL > 0 :=
      not_lt.mpr hle
    rw [integrateBRDFStep_terms, integrateBRDFMultiscatterStep_terms, if_neg hnot,
      if_neg hnot]
    exact ⟨rfl, rfl⟩

/-- C12 for a cache line of two samples `(0, 0, 1)` at `roughnessLinear = NoV = 1/2`. -/
theorem integrators_accumulators_witness :
    (1 ≤ 2) ∧
    ((integrateBRDFMultiscatterSums (fun _ => 1) (fun _ => ⟨0, 0, 1⟩) (1 / 2) (1 / 2) 2 0).1
        = (integrateBRDFSums (fun _ => 1) (fun _ => ⟨0, 0, 1⟩) (1 / 2) (1 / 2) 2 0).2 ∧
      (integrateBRDFMultiscatterSums (fun _ => 1) (fun _ => ⟨0, 0, 1⟩) (1 / 2) (1 / 2) 2 0).2
        = (integrateBRDFSums (fun _ => 1) (fun _ => ⟨0, 0, 1⟩) (1 / 2) (1 / 2) 2 0).1
          + (integrateBRDFSums (fun _ => 1) (fun _ => ⟨0, 0, 1⟩) (1 / 2) (1 / 2) 2 0).2) :=
  ⟨by decide,
    (integrators_accumulators (fun _ => 1) (fun _ => ⟨0, 0, 1⟩) (1 / 2) (1 / 2) 2 0
      (by decide)).1,
    (integrators_accumulators (fun _ => 1) (fun _ => ⟨0, 0, 1⟩) (1 / 2) (1 / 2) 2 0
      (by decide)).2.1⟩

/-! ## Range of the integrators -/

end EnvBRDF
